import Mathlib

/-!
Verification of the Sudoku loader and backtracking solver
(`sudoku_tools.py`, class `Sudoku`).

The embedding is shallow:
* the mutable `self.__board` (a Python list of lists of ints) becomes a
  `Board := List (List ℤ)` threaded explicitly through the functions;
* the instance fields set by `load_board_csv` become the record `PyState`
  (unset fields are `none`, matching the `None` class defaults);
* the recursive inner function `process_board` becomes the fueled function
  `process_board_F`; the fuel only bounds the recursion depth, and the
  development proves that fuel `N^2 + 1` is always sufficient, which is
  exactly the source's depth bound (each recursive call strictly increases
  the cell index, capped at `N^2`);
* Python's distinct falsy returns `False` and `None` (and `True`) of
  `load_board_csv` become the three-valued `PyRet`;
* reading the CSV file becomes an `Option (List (List String))` argument:
  `none` models `FileNotFoundError`, `some rows` models the list of
  comma-split lines.
-/

/-- A 0-indexed (row, column) pair, as the Python lists `[row, col]`. -/
abbrev Coord := ℕ × ℕ

/-- The game board: a list of rows of integer cells, as in the source. -/
abbrev Board := List (List ℤ)

/-- Reading `self.__board[p.1][p.2]`.  Out-of-range reads default to `0`;
the Python code would raise `IndexError`, and every read performed by the
embedded functions on a loaded state is in range. -/
def get_cell (b : Board) (p : Coord) : ℤ :=
  (b.getD p.1 []).getD p.2 0

/-- The assignment `self.__board[p.1][p.2] = v`.  Out-of-range writes are
dropped (the Python code would raise `IndexError`; every write performed by
the embedded functions on a loaded state is in range). -/
def set_cell (b : Board) (p : Coord) (v : ℤ) : Board :=
  b.set p.1 ((b.getD p.1 []).set p.2 v)

/-- Python `int(s)` restricted to the forms exercised here: an optional
single `+` or `-` sign followed by one or more decimal digits.  (CPython
additionally strips whitespace and allows `_` separators; no claim depends
on those inputs.)  `none` models the `ValueError` branch. -/
def py_digits (l : List Char) : Option ℕ :=
  if l = [] then none
  else if l.all Char.isDigit then
    some (l.foldl (fun a ch => a * 10 + (ch.toNat - 48)) 0)
  else none

/-- Python `int(s)` on a cell string, cf. `py_digits`. -/
def py_int (s : String) : Option ℤ :=
  match s.toList with
  | '-' :: rest => (py_digits rest).map (fun n => -(n : ℤ))
  | '+' :: rest => (py_digits rest).map (fun n => (n : ℤ))
  | l => (py_digits l).map (fun n => (n : ℤ))

/-- `Sudoku.__convert_grid_str_to_int`: convert every cell of the raw grid
with `int(...)`; any `ValueError` aborts with `False` (here: `none`).
`load_board_csv` only calls this after the squareness check, so iterating
over whole rows coincides with the source's `range(len(board))` indexing. -/
def convert_grid_str_to_int (rows : List (List String)) : Option Board :=
  rows.mapM (fun row => row.mapM py_int)

/-- `Sudoku.__set_protected_coordinates`: the row-major list of coordinates
holding a non-zero (pre-filled) value. -/
def set_protected_coordinates (b : Board) : List Coord :=
  (List.range b.length).flatMap (fun i =>
    (List.range b.length).filterMap (fun j =>
      if get_cell b (i, j) ≠ 0 then some (i, j) else none))

/-- `Sudoku.__set_subgrid_coordinates`: first the in-tile offsets
`sub_coords = [[a, b] | a < r, b < c]`, then one tile per `(i, j)` with
`i < c`, `j < r`, whose member coordinates are `(i * r + a, j * c + b)`. -/
def set_subgrid_coordinates (r c : ℕ) : List (List Coord) :=
  let sub_coords := (List.range r).flatMap (fun a =>
    (List.range c).map (fun b => (a, b)))
  (List.range c).flatMap (fun i =>
    (List.range r).map (fun j =>
      sub_coords.map (fun ab => (i * r + ab.1, j * c + ab.2))))

/-- `Sudoku.__get_subgrid_from_coord`: the first cached subgrid containing
the coordinate (`None` when no subgrid does; Python then returns `None`). -/
def get_subgrid_from_coord (subs : List (List Coord)) (p : Coord) :
    Option (List Coord) :=
  subs.find? (fun sub => decide (p ∈ sub))

/-- `Sudoku.__get_coord_from_index`: row-major index to coordinate. -/
def get_coord_from_index (N i : ℕ) : Coord :=
  (i / N, i % N)

/-- `Sudoku.__validate_num_at_coord`: `num` may be placed at `p` when it
appears nowhere in row `p.1`, nowhere in column `p.2`, and nowhere in the
subgrid of `p`.  When `__get_subgrid_from_coord` returns `None` the Python
code raises `TypeError`; that branch is modelled as "no subgrid conflict"
and is unreachable for the in-range coordinates scanned on a loaded state,
whose subgrids cover the board. -/
def validate_num_at_coord (N : ℕ) (subs : List (List Coord)) (b : Board)
    (num : ℤ) (p : Coord) : Bool :=
  if (List.range N).any (fun i =>
      num = get_cell b (p.1, i) ∨ num = get_cell b (i, p.2)) then false
  else
    let sub := (get_subgrid_from_coord subs p).getD []
    let subgrid_nums := sub.map (fun q => get_cell b q)
    if num ∈ subgrid_nums then false else true

/-- The index the recursion continues with from `current_index = i`: the
source computes `next_index = i + 1` and bumps it once more when the
coordinate of `i + 1` is protected (`# // Skip a step if next is
protected`).  Note that only the *next* index is ever tested. -/
def next_index (N : ℕ) (prot : List Coord) (i : ℕ) : ℕ :=
  if get_coord_from_index N (i + 1) ∈ prot then i + 2 else i + 1

/-- The digit loop `for d in range(1, N + 1)` of `process_board`, over the
list of digits still to try.  A digit that validates is placed and `rec`
(the recursive call at the already-computed next index, one fuel level
down) runs on the updated board; its success propagates immediately
(Python's early `return True`), its failure hands the board it left back
to the next iteration; exhausting the digits falls through with the
current board (the source then resets the cell and returns `False`).
`none` signals fuel exhaustion inside `rec`. -/
def try_digits (N : ℕ) (subs : List (List Coord))
    (rec : Board → Option (Bool × Board)) (p : Coord) :
    List ℕ → Board → Option (Bool × Board)
  | [], b1 => some (false, b1)
  | d :: ds, b1 =>
    if validate_num_at_coord N subs b1 (d : ℤ) p then
      match rec (set_cell b1 p (d : ℤ)) with
      | none => none
      | some (true, b2) => some (true, b2)
      | some (false, b2) => try_digits N subs rec p ds b2
    else try_digits N subs rec p ds b1

/-- The inner recursive function `process_board`, with an explicit fuel
bounding the recursion depth (`none` = fuel exhausted; the development
proves fuel `N^2 + 1` always suffices).  At or past index `N^2` the search
succeeded; otherwise the digits `1 .. N` are tried in ascending order at
the coordinate of the current index, and after a fruitless loop the source
unconditionally resets the current cell to `0` and reports failure. -/
def process_board_F (N : ℕ) (subs : List (List Coord)) (prot : List Coord) :
    ℕ → ℕ → Board → Option (Bool × Board)
  | 0, _, _ => none
  | fuel + 1, i, b =>
    if N ^ 2 ≤ i then some (true, b)
    else
      let p := get_coord_from_index N i
      match try_digits N subs
          (fun b1 => process_board_F N subs prot fuel (next_index N prot i) b1)
          p ((List.range N).map (· + 1)) b with
      | none => none
      | some (true, b1) => some (true, b1)
      | some (false, b1) => some (false, set_cell b1 p 0)

/-- The `Sudoku` instance fields, with the class-level `None` defaults. -/
structure PyState where
  board : Option Board := none
  sudoku_N : Option ℕ := none
  subgrid_row_count : Option ℕ := none
  subgrid_column_count : Option ℕ := none
  subgrid_coordinates : Option (List (List Coord)) := none
  protected_coordinates : List Coord := []
deriving DecidableEq

/-- The distinguishable results of `load_board_csv`: Python's `True`,
`False`, and bare-`return` `None`. -/
inductive PyRet where
  | pyTrue
  | pyFalse
  | pyNone
deriving DecidableEq

/-- `Sudoku.load_board_csv`.  `src = none` models `FileNotFoundError`;
`some rows` the comma-split lines.  The four checks run in source order:
file present, every row as long as the row count, `sr * sc == len(board)`
(note the bare `return`, i.e. `None`), cells all numeric.  On success the
instance fields are assigned. -/
def load_board_csv (st : PyState) (src : Option (List (List String)))
    (sr sc : ℕ) : PyRet × PyState :=
  match src with
  | none => (PyRet.pyFalse, st)
  | some rows =>
    if ¬ (∀ row ∈ rows, row.length = rows.length) then (PyRet.pyFalse, st)
    else if sr * sc ≠ rows.length then (PyRet.pyNone, st)
    else
      match convert_grid_str_to_int rows with
      | none => (PyRet.pyFalse, st)
      | some b =>
        (PyRet.pyTrue,
          { st with
            board := some b
            sudoku_N := some rows.length
            subgrid_row_count := some sr
            subgrid_column_count := some sc
            subgrid_coordinates := some (set_subgrid_coordinates sr sc)
            protected_coordinates := set_protected_coordinates b })

/-- `Sudoku.backtrack`: guard that board, side length and subgrids are set,
then run `process_board` from index 0.  The solver mutates the board, so
the result carries the updated state.  Fuel `N^2 + 1` is provably always
sufficient (`process_board_F_fuel_high`), so the `none` arm is dead. -/
def backtrack (st : PyState) : Bool × PyState :=
  match st.board with
  | none => (false, st)
  | some b =>
    match st.sudoku_N with
    | none => (false, st)
    | some N =>
      match st.subgrid_coordinates with
      | none => (false, st)
      | some subs =>
        match process_board_F N subs st.protected_coordinates
            (N ^ 2 + 1) 0 b with
        | none => (false, st)
        | some (r, b2) => (r, { st with board := some b2 })

/-- The row-major index of a coordinate, inverse to `get_coord_from_index`. -/
def idx_of (N : ℕ) (p : Coord) : ℕ := p.1 * N + p.2
/-- An in-range coordinate of an `n`-sided board. -/
def in_range (n : ℕ) (p : Coord) : Prop := p.1 < n ∧ p.2 < n
/-- The board is a well-formed `n` by `n` grid. -/
def grid_shape (n : ℕ) (b : Board) : Prop :=
  b.length = n ∧ ∀ k, k < n → (b.getD k []).length = n
/-- Every coordinate scanned by `__validate_num_at_coord` at `p`: the whole
row `p.1`, the whole column `p.2`, and the members of the first cached
subgrid containing `p`.  (The list includes `p` itself.) -/
def peers (N : ℕ) (subs : List (List Coord)) (p : Coord) : List Coord :=
  ((List.range N).flatMap (fun t => [(p.1, t), (t, p.2)])) ++
    (get_subgrid_from_coord subs p).getD []
/-- The chain of indices the recursion visits from index `i` on: `i` itself
and then whatever `next_index` leads to, stopping at `N^2`.  Which indices
get entered depends only on the protected set, not on the board. -/
def ent_list (N : ℕ) (prot : List Coord) (i : ℕ) : List ℕ :=
  if _h : i < N ^ 2 then i :: ent_list N prot (next_index N prot i) else []
termination_by N ^ 2 - i
decreasing_by
  simp only [next_index]
  split <;> omega
/-- The in-tile offsets built by `__set_subgrid_coordinates`. -/
def sub_coords (r c : ℕ) : List Coord :=
  (List.range r).flatMap (fun a => (List.range c).map (fun b => (a, b)))
/-- One tile of `__set_subgrid_coordinates`, for tile row `i` and tile
column `j`. -/
def tile (r c i j : ℕ) : List Coord :=
  (sub_coords r c).map (fun ab => (i * r + ab.1, j * c + ab.2))
/-- What the search establishes at an entered index `j` when it succeeds:
some digit `d` in `1 .. N` sits in the final board at the coordinate of
`j`, and `d` differs from the final value of every scanned peer except
those filled by a later entered index (those peers validated against this
cell themselves). -/
def placed_ok (N : ℕ) (subs : List (List Coord)) (prot : List Coord)
    (i : ℕ) (b2 : Board) (j : ℕ) : Prop :=
  ∃ d : ℕ, 1 ≤ d ∧ d ≤ N ∧
    get_cell b2 (get_coord_from_index N j) = (d : ℤ) ∧
    ∀ q ∈ peers N subs (get_coord_from_index N j),
      q ≠ get_coord_from_index N j →
      (∀ j2 ∈ ent_list N prot i, j < j2 → get_coord_from_index N j2 ≠ q) →
      (d : ℤ) ≠ get_cell b2 q
/-- Two coordinates constrain each other: same row, same column, or same
cached subgrid. -/
def same_unit (r c : ℕ) (p q : Coord) : Prop :=
  p.1 = q.1 ∨ p.2 = q.2 ∨
    ∃ sub ∈ set_subgrid_coordinates r c, p ∈ sub ∧ q ∈ sub
instance same_unit_decidable (r c : ℕ) (p q : Coord) :
    Decidable (same_unit r c p q) := by
  unfold same_unit
  exact inferInstance
instance in_range_decidable (n : ℕ) (p : Coord) :
    Decidable (in_range n p) := by
  unfold in_range
  exact inferInstance
/-- A 9 by 9 input whose first row holds two identical non-zero givens
(`2` at columns 0 and 1); the other cells carry an otherwise valid
completed grid. -/
def dup_rows9 : List (List String) :=
  [["2", "2", "3", "4", "5", "6", "7", "8", "9"],
   ["4", "5", "6", "7", "8", "9", "1", "2", "3"],
   ["7", "8", "9", "1", "2", "3", "4", "5", "6"],
   ["2", "3", "4", "5", "6", "7", "8", "9", "1"],
   ["5", "6", "7", "8", "9", "1", "2", "3", "4"],
   ["8", "9", "1", "2", "3", "4", "5", "6", "7"],
   ["3", "4", "5", "6", "7", "8", "9", "1", "2"],
   ["6", "7", "8", "9", "1", "2", "3", "4", "5"],
   ["9", "1", "2", "3", "4", "5", "6", "7", "8"]]

/-! ### Coordinates, cells and board shapes -/

lemma coord_of_idx_of {N : ℕ} {p : Coord} (h : in_range N p) :
    get_coord_from_index N (idx_of N p) = p := by
  obtain ⟨h1, h2⟩ := h
  have hN : 0 < N := Nat.lt_of_le_of_lt (Nat.zero_le _) h1
  unfold get_coord_from_index idx_of
  have hdiv : (p.1 * N + p.2) / N = p.1 := by
    rw [Nat.add_comm, Nat.mul_comm, Nat.add_mul_div_left _ _ hN,
      Nat.div_eq_of_lt h2, Nat.zero_add]
  have hmod : (p.1 * N + p.2) % N = p.2 := by
    rw [Nat.add_comm, Nat.mul_comm, Nat.add_mul_mod_self_left,
      Nat.mod_eq_of_lt h2]
  rw [hdiv, hmod]

lemma idx_of_coord_of {N i : ℕ} :
    idx_of N (get_coord_from_index N i) = i := by
  unfold get_coord_from_index idx_of
  simp only []
  rw [Nat.mul_comm]
  exact Nat.div_add_mod i N

lemma idx_of_lt {N : ℕ} {p : Coord} (h : in_range N p) :
    idx_of N p < N ^ 2 := by
  obtain ⟨h1, h2⟩ := h
  have : p.1 * N + p.2 < (p.1 + 1) * N := by
    have : (p.1 + 1) * N = p.1 * N + N := by ring
    omega
  have h3 : (p.1 + 1) * N ≤ N * N := Nat.mul_le_mul_right N h1
  have h4 : N ^ 2 = N * N := by ring
  unfold idx_of
  omega

lemma coord_of_in_range {N i : ℕ} (h : i < N ^ 2) :
    in_range N (get_coord_from_index N i) := by
  have hN : 0 < N := by
    rcases Nat.eq_zero_or_pos N with h0 | h0
    · subst h0; simp at h
    · exact h0
  constructor
  · have h4 : N ^ 2 = N * N := by ring
    exact Nat.div_lt_iff_lt_mul hN |>.mpr (by omega)
  · exact Nat.mod_lt _ hN

lemma get_cell_eq (b : Board) (q : Coord) :
    get_cell b q = ((b[q.1]?.getD [])[q.2]?).getD 0 := by
  simp [get_cell, List.getD_eq_getElem?_getD]

lemma get_cell_set_cell_ne {b : Board} {p q : Coord} {v : ℤ} (h : q ≠ p) :
    get_cell (set_cell b p v) q = get_cell b q := by
  rcases eq_or_ne q.1 p.1 with h1 | h1
  · have h2 : q.2 ≠ p.2 := by
      intro hc; exact h (Prod.ext_iff.mpr ⟨h1, hc⟩)
    by_cases hlen : p.1 < b.length
    · rw [get_cell_eq, get_cell_eq, set_cell, h1, List.getElem?_set_self hlen,
        List.getD_eq_getElem?_getD]
      simp only [Option.getD_some]
      rw [List.getElem?_set_ne (by omega : p.2 ≠ q.2)]
    · rw [set_cell, List.set_eq_of_length_le (by omega)]
  · rw [get_cell_eq, get_cell_eq, set_cell,
      List.getElem?_set_ne (by omega : p.1 ≠ q.1)]

lemma get_cell_set_cell_self {b : Board} {p : Coord} {v : ℤ}
    (h1 : p.1 < b.length) (h2 : p.2 < (b.getD p.1 []).length) :
    get_cell (set_cell b p v) p = v := by
  rw [get_cell_eq, set_cell, List.getElem?_set_self h1]
  simp only [Option.getD_some]
  rw [List.getElem?_set_self h2]
  simp

lemma grid_shape_set_cell {n : ℕ} {b : Board} {p : Coord} {v : ℤ}
    (h : grid_shape n b) : grid_shape n (set_cell b p v) := by
  constructor
  · simp [set_cell, h.1]
  intro k hk
  rcases eq_or_ne k p.1 with heq | hne
  · have hlen : p.1 < b.length := h.1 ▸ (heq ▸ hk)
    rw [heq, List.getD_eq_getElem?_getD, set_cell, List.getElem?_set_self hlen]
    simp only [Option.getD_some, List.length_set]
    exact h.2 p.1 (heq ▸ hk)
  · rw [List.getD_eq_getElem?_getD, set_cell,
      List.getElem?_set_ne (by omega : p.1 ≠ k), ← List.getD_eq_getElem?_getD]
    exact h.2 k hk

lemma get_cell_set_cell_self' {n : ℕ} {b : Board} {p : Coord} {v : ℤ}
    (hs : grid_shape n b) (hp : in_range n p) :
    get_cell (set_cell b p v) p = v :=
  get_cell_set_cell_self (hs.1 ▸ hp.1) ((hs.2 p.1 hp.1).symm ▸ hp.2)

/-! ### What a successful validation guarantees -/

lemma validate_iff {N : ℕ} {subs : List (List Coord)} {b : Board} {num : ℤ}
    {p : Coord} :
    validate_num_at_coord N subs b num p = true ↔
      ∀ q ∈ peers N subs p, num ≠ get_cell b q := by
  unfold validate_num_at_coord peers
  constructor
  · intro hv q hq hnum
    rcases List.mem_append.mp hq with hrc | hsub
    · obtain ⟨t, ht, hq2⟩ := List.mem_flatMap.mp hrc
      have ht' : t < N := List.mem_range.mp ht
      have : (List.range N).any (fun i =>
          num = get_cell b (p.1, i) ∨ num = get_cell b (i, p.2)) = true := by
        refine List.any_eq_true.mpr ⟨t, ht, ?_⟩
        simp only [List.mem_cons, List.mem_singleton] at hq2
        rcases hq2 with rfl | hq2
        · exact decide_eq_true (Or.inl hnum)
        · rcases hq2 with rfl | hf
          · exact decide_eq_true (Or.inr hnum)
          · exact absurd hf (List.not_mem_nil q)
      rw [if_pos this] at hv
      exact absurd hv (by simp)
    · by_cases hrow : (List.range N).any (fun i =>
          num = get_cell b (p.1, i) ∨ num = get_cell b (i, p.2)) = true
      · rw [if_pos hrow] at hv; exact absurd hv (by simp)
      · rw [if_neg hrow] at hv
        have hmem : num ∈ (((get_subgrid_from_coord subs p).getD []).map
            (fun q => get_cell b q)) :=
          List.mem_map.mpr ⟨q, hsub, hnum.symm⟩
        rw [if_pos hmem] at hv
        exact absurd hv (by simp)
  · intro hall
    have hrow : ¬ (List.range N).any (fun i =>
        num = get_cell b (p.1, i) ∨ num = get_cell b (i, p.2)) = true := by
      intro hany
      obtain ⟨t, ht, hor⟩ := List.any_eq_true.mp hany
      have hor' := of_decide_eq_true hor
      rcases hor' with h1 | h1
      · exact hall (p.1, t) (List.mem_append.mpr (Or.inl
          (List.mem_flatMap.mpr ⟨t, ht, by simp⟩))) h1
      · exact hall (t, p.2) (List.mem_append.mpr (Or.inl
          (List.mem_flatMap.mpr ⟨t, ht, by simp⟩))) h1
    rw [if_neg hrow]
    have hsub : ¬ num ∈ (((get_subgrid_from_coord subs p).getD []).map
        (fun q => get_cell b q)) := by
      intro hmem
      obtain ⟨q, hq, hval⟩ := List.mem_map.mp hmem
      exact hall q (List.mem_append.mpr (Or.inr hq)) hval.symm
    rw [if_neg hsub]

/-! ### The set of indices the search can enter -/

lemma next_index_gt {N : ℕ} {prot : List Coord} (i : ℕ) :
    i < next_index N prot i := by
  unfold next_index; split <;> omega

lemma ent_list_mem_bounds {N : ℕ} {prot : List Coord} :
    ∀ {i j : ℕ}, j ∈ ent_list N prot i → i ≤ j ∧ j < N ^ 2 := by
  intro i
  induction i using ent_list.induct N prot with
  | case1 i h ih =>
    intro j hj
    rw [ent_list, dif_pos h] at hj
    rcases List.mem_cons.mp hj with rfl | hj'
    · exact ⟨le_refl _, h⟩
    · have := ih hj'
      have hn := @next_index_gt N prot i
      omega
  | case2 i h =>
    intro j hj
    rw [ent_list, dif_neg h] at hj
    exact absurd hj (List.not_mem_nil j)

lemma ent_list_cover {N : ℕ} {prot : List Coord} :
    ∀ {i j : ℕ}, i ≤ j → j < N ^ 2 →
      get_coord_from_index N j ∉ prot → j ∈ ent_list N prot i := by
  intro i
  induction i using ent_list.induct N prot with
  | case1 i h ih =>
    intro j hij hj hprot
    rw [ent_list, dif_pos h]
    rcases Nat.eq_or_lt_of_le hij with rfl | hlt
    · exact List.mem_cons_self _ _
    · refine List.mem_cons_of_mem _ (ih ?_ hj hprot)
      unfold next_index
      split
      · rename_i hskip
        rcases Nat.eq_or_lt_of_le hlt with heq | hlt2
        · exact absurd (heq ▸ hskip) hprot
        · omega
      · omega
  | case2 i h =>
    intro j hij hj _
    omega

lemma ent_list_tail {N : ℕ} {prot : List Coord} {i j : ℕ}
    (hj : j ∈ ent_list N prot (next_index N prot i)) :
    j ∈ ent_list N prot i := by
  by_cases h : i < N ^ 2
  · rw [ent_list, dif_pos h]
    exact List.mem_cons_of_mem _ hj
  · have hb := ent_list_mem_bounds hj
    have := @next_index_gt N prot i
    omega

/-! ### Fuel sufficiency: the recursion depth is bounded by the cell count -/

lemma try_digits_congr {N : ℕ} {subs : List (List Coord)}
    {rec1 rec2 : Board → Option (Bool × Board)} {p : Coord}
    (h : ∀ b1, rec1 b1 = rec2 b1) :
    ∀ ds b1, try_digits N subs rec1 p ds b1 = try_digits N subs rec2 p ds b1 := by
  intro ds
  induction ds with
  | nil => intro b1; rfl
  | cons d ds ih =>
    intro b1
    rw [try_digits, try_digits]
    split
    · rw [h (set_cell b1 p (d : ℤ))]
      rcases hr : rec2 (set_cell b1 p (d : ℤ)) with _ | ⟨_ | _, b2⟩
      · rfl
      · exact ih b2
      · rfl
    · exact ih b1

lemma try_digits_isSome {N : ℕ} {subs : List (List Coord)}
    {rec : Board → Option (Bool × Board)} {p : Coord}
    (h : ∀ b1, (rec b1).isSome) :
    ∀ ds b1, (try_digits N subs rec p ds b1).isSome := by
  intro ds
  induction ds with
  | nil => intro b1; rfl
  | cons d ds ih =>
    intro b1
    rw [try_digits]
    split
    · rcases hr : rec (set_cell b1 p (d : ℤ)) with _ | ⟨_ | _, b2⟩
      · have := h (set_cell b1 p (d : ℤ)); rw [hr] at this; exact absurd this (by simp)
      · exact ih b2
      · rfl
    · exact ih b1

lemma process_board_F_base {N : ℕ} {subs : List (List Coord)}
    {prot : List Coord} {fuel i : ℕ} {b : Board} (hge : N ^ 2 ≤ i) :
    process_board_F N subs prot (fuel + 1) i b = some (true, b) := by
  rw [process_board_F, if_pos hge]

lemma process_board_F_unfold {N : ℕ} {subs : List (List Coord)}
    {prot : List Coord} {fuel i : ℕ} {b : Board} (hlt : i < N ^ 2) :
    process_board_F N subs prot (fuel + 1) i b =
      match try_digits N subs
          (fun b1 => process_board_F N subs prot fuel (next_index N prot i) b1)
          (get_coord_from_index N i) ((List.range N).map (· + 1)) b with
      | none => none
      | some (true, b1) => some (true, b1)
      | some (false, b1) =>
        some (false, set_cell b1 (get_coord_from_index N i) 0) := by
  rw [process_board_F, if_neg (by omega)]

lemma process_board_F_isSome {N : ℕ} {subs : List (List Coord)}
    {prot : List Coord} :
    ∀ fuel {i : ℕ} (b : Board), N ^ 2 + 1 ≤ i + fuel → 0 < fuel →
      (process_board_F N subs prot fuel i b).isSome := by
  intro fuel
  induction fuel with
  | zero => intro i b _ hpos; omega
  | succ f ih =>
    intro i b hle _
    by_cases hge : N ^ 2 ≤ i
    · rw [process_board_F_base hge]; rfl
    · rw [process_board_F_unfold (by omega)]
      have hf : 0 < f := by omega
      have hrec : ∀ b1, (process_board_F N subs prot f
          (next_index N prot i) b1).isSome := by
        intro b1
        refine ih b1 ?_ hf
        have := @next_index_gt N prot i
        omega
      have hsome := @try_digits_isSome N subs
        (fun b1 => process_board_F N subs prot f (next_index N prot i) b1)
        (get_coord_from_index N i) hrec ((List.range N).map (· + 1)) b
      rcases htd : try_digits N subs
          (fun b1 => process_board_F N subs prot f (next_index N prot i) b1)
          (get_coord_from_index N i) ((List.range N).map (· + 1)) b with
        _ | ⟨_ | _, b1⟩
      · rw [htd] at hsome; exact absurd hsome (by simp)
      · simp only [htd]; rfl
      · simp only [htd]; rfl

lemma process_board_F_succ_eq {N : ℕ} {subs : List (List Coord)}
    {prot : List Coord} :
    ∀ fuel {i : ℕ} (b : Board), N ^ 2 + 1 ≤ i + fuel → 0 < fuel →
      process_board_F N subs prot (fuel + 1) i b =
        process_board_F N subs prot fuel i b := by
  intro fuel
  induction fuel with
  | zero => intro i b _ hpos; omega
  | succ f ih =>
    intro i b hle _
    by_cases hge : N ^ 2 ≤ i
    · rw [process_board_F_base hge, process_board_F_base hge]
    · rw [process_board_F_unfold (by omega), process_board_F_unfold (by omega)]
      have hf : 0 < f := by omega
      have hrec : ∀ b1, process_board_F N subs prot (f + 1)
          (next_index N prot i) b1 =
          process_board_F N subs prot f (next_index N prot i) b1 := by
        intro b1
        refine ih b1 ?_ hf
        have := @next_index_gt N prot i
        omega
      rw [@try_digits_congr N subs
        (fun b1 => process_board_F N subs prot (f + 1) (next_index N prot i) b1)
        (fun b1 => process_board_F N subs prot f (next_index N prot i) b1)
        (get_coord_from_index N i) hrec ((List.range N).map (· + 1)) b]

lemma process_board_F_add_eq {N : ℕ} {subs : List (List Coord)}
    {prot : List Coord} {fuel i : ℕ} (b : Board)
    (hle : N ^ 2 + 1 ≤ i + fuel) (hpos : 0 < fuel) :
    ∀ k, process_board_F N subs prot (fuel + k) i b =
      process_board_F N subs prot fuel i b := by
  intro k
  induction k with
  | zero => rfl
  | succ m ih =>
    have : fuel + (m + 1) = (fuel + m) + 1 := by omega
    rw [this, process_board_F_succ_eq (fuel + m) b (by omega) (by omega), ih]

lemma process_board_F_fuel_high {N : ℕ} {subs : List (List Coord)}
    {prot : List Coord} {fuel1 fuel2 i : ℕ} (b : Board)
    (h1 : N ^ 2 + 1 ≤ i + fuel1) (h1p : 0 < fuel1)
    (h2 : N ^ 2 + 1 ≤ i + fuel2) (h2p : 0 < fuel2) :
    process_board_F N subs prot fuel1 i b =
      process_board_F N subs prot fuel2 i b := by
  rcases Nat.le_total fuel1 fuel2 with h | h
  · obtain ⟨k, rfl⟩ := Nat.le.dest h
    exact (process_board_F_add_eq b h1 h1p k).symm
  · obtain ⟨k, rfl⟩ := Nat.le.dest h
    exact process_board_F_add_eq b h2 h2p k

/-! ### The subgrid map is a partition of the coordinate space -/

lemma set_subgrid_coordinates_eq (r c : ℕ) :
    set_subgrid_coordinates r c =
      (List.range c).flatMap (fun i =>
        (List.range r).map (fun j => tile r c i j)) := rfl

lemma mem_sub_coords {r c : ℕ} {ab : Coord} :
    ab ∈ sub_coords r c ↔ ab.1 < r ∧ ab.2 < c := by
  unfold sub_coords
  constructor
  · intro h
    obtain ⟨a, ha, hab⟩ := List.mem_flatMap.mp h
    obtain ⟨b, hb, hab2⟩ := List.mem_map.mp hab
    subst hab2
    exact ⟨List.mem_range.mp ha, List.mem_range.mp hb⟩
  · intro ⟨h1, h2⟩
    exact List.mem_flatMap.mpr ⟨ab.1, List.mem_range.mpr h1,
      List.mem_map.mpr ⟨ab.2, List.mem_range.mpr h2, rfl⟩⟩

lemma mem_tile {r c i j : ℕ} {p : Coord} :
    p ∈ tile r c i j ↔
      ∃ a b, a < r ∧ b < c ∧ p = (i * r + a, j * c + b) := by
  unfold tile
  constructor
  · intro h
    obtain ⟨ab, hab, hp⟩ := List.mem_map.mp h
    obtain ⟨h1, h2⟩ := mem_sub_coords.mp hab
    exact ⟨ab.1, ab.2, h1, h2, hp.symm⟩
  · intro ⟨a, b, h1, h2, hp⟩
    exact List.mem_map.mpr ⟨(a, b), mem_sub_coords.mpr ⟨h1, h2⟩, hp.symm⟩

lemma mem_tile_iff_div {r c i j : ℕ} (hr : 0 < r) (hc : 0 < c) {p : Coord} :
    p ∈ tile r c i j ↔ p.1 / r = i ∧ p.2 / c = j := by
  rw [mem_tile]
  constructor
  · intro ⟨a, b, h1, h2, hp⟩
    rw [hp]
    constructor
    · simp only []
      rw [Nat.add_comm, Nat.mul_comm, Nat.add_mul_div_left _ _ hr,
        Nat.div_eq_of_lt h1, Nat.zero_add]
    · simp only []
      rw [Nat.add_comm, Nat.mul_comm, Nat.add_mul_div_left _ _ hc,
        Nat.div_eq_of_lt h2, Nat.zero_add]
  · intro ⟨h1, h2⟩
    refine ⟨p.1 % r, p.2 % c, Nat.mod_lt _ hr, Nat.mod_lt _ hc, ?_⟩
    have e1 : i * r + p.1 % r = p.1 := by
      rw [← h1, Nat.mul_comm]
      exact Nat.div_add_mod p.1 r
    have e2 : j * c + p.2 % c = p.2 := by
      rw [← h2, Nat.mul_comm]
      exact Nat.div_add_mod p.2 c
    rw [e1, e2]

lemma mem_set_subgrid_coordinates {r c : ℕ} {sub : List Coord} :
    sub ∈ set_subgrid_coordinates r c ↔
      ∃ i j, i < c ∧ j < r ∧ sub = tile r c i j := by
  rw [set_subgrid_coordinates_eq]
  constructor
  · intro h
    obtain ⟨i, hi, hsub⟩ := List.mem_flatMap.mp h
    obtain ⟨j, hj, hsub2⟩ := List.mem_map.mp hsub
    exact ⟨i, j, List.mem_range.mp hi, List.mem_range.mp hj, hsub2.symm⟩
  · intro ⟨i, j, hi, hj, hsub⟩
    exact List.mem_flatMap.mpr ⟨i, List.mem_range.mpr hi,
      List.mem_map.mpr ⟨j, List.mem_range.mpr hj, hsub.symm⟩⟩

lemma tile_member_in_range {r c i j : ℕ} {p : Coord} (hi : i < c) (hj : j < r)
    (hp : p ∈ tile r c i j) : in_range (r * c) p := by
  obtain ⟨a, b, h1, h2, hp⟩ := mem_tile.mp hp
  subst hp
  constructor
  · show i * r + a < r * c
    have : i * r + a < (i + 1) * r := by
      have : (i + 1) * r = i * r + r := by ring
      omega
    have h3 : (i + 1) * r ≤ c * r := Nat.mul_le_mul_right r hi
    have h4 : c * r = r * c := Nat.mul_comm c r
    omega
  · show j * c + b < r * c
    have : j * c + b < (j + 1) * c := by
      have : (j + 1) * c = j * c + c := by ring
      omega
    have h3 : (j + 1) * c ≤ r * c := Nat.mul_le_mul_right c hj
    omega

lemma tile_cover {r c : ℕ} {p : Coord} (hp : in_range (r * c) p) :
    p ∈ tile r c (p.1 / r) (p.2 / c) ∧
      p.1 / r < c ∧ p.2 / c < r := by
  have hr : 0 < r := by
    rcases Nat.eq_zero_or_pos r with h0 | h0
    · subst h0; simp [in_range] at hp
    · exact h0
  have hc : 0 < c := by
    rcases Nat.eq_zero_or_pos c with h0 | h0
    · subst h0; simp [in_range] at hp
    · exact h0
  refine ⟨(mem_tile_iff_div hr hc).mpr ⟨rfl, rfl⟩, ?_, ?_⟩
  · exact (Nat.div_lt_iff_lt_mul hr).mpr (by
      have := hp.1; have h4 : c * r = r * c := Nat.mul_comm c r; omega)
  · exact (Nat.div_lt_iff_lt_mul hc).mpr hp.2

/-- For an in-range coordinate, `__get_subgrid_from_coord` finds exactly
the tile determined by integer division. -/
lemma get_subgrid_from_coord_eq {r c : ℕ} {p : Coord}
    (hp : in_range (r * c) p) :
    get_subgrid_from_coord (set_subgrid_coordinates r c) p =
      some (tile r c (p.1 / r) (p.2 / c)) := by
  have hr : 0 < r := by
    rcases Nat.eq_zero_or_pos r with h0 | h0
    · subst h0; simp [in_range] at hp
    · exact h0
  have hc : 0 < c := by
    rcases Nat.eq_zero_or_pos c with h0 | h0
    · subst h0; simp [in_range] at hp
    · exact h0
  obtain ⟨hmem, hi, hj⟩ := tile_cover hp
  have hsome : (get_subgrid_from_coord (set_subgrid_coordinates r c) p).isSome := by
    unfold get_subgrid_from_coord
    exact List.find?_isSome.mpr ⟨tile r c (p.1 / r) (p.2 / c),
      mem_set_subgrid_coordinates.mpr ⟨_, _, hi, hj, rfl⟩, decide_eq_true hmem⟩
  obtain ⟨sub, hfind⟩ := Option.isSome_iff_exists.mp hsome
  have hfind' : (set_subgrid_coordinates r c).find?
      (fun sub => decide (p ∈ sub)) = some sub := hfind
  have hpred := List.find?_some hfind'
  simp only [decide_eq_true_eq] at hpred
  have hsub := List.mem_of_find?_eq_some hfind'
  obtain ⟨i', j', hi', hj', rfl⟩ := mem_set_subgrid_coordinates.mp hsub
  obtain ⟨hdiv1, hdiv2⟩ := (mem_tile_iff_div hr hc).mp hpred
  rw [hfind, hdiv1, hdiv2]

lemma countP_flatMap_eq {α β : Type} (P : β → Bool) (f : α → List β) :
    ∀ l : List α, (l.flatMap f).countP P = (l.map (fun a => (f a).countP P)).sum := by
  intro l
  induction l with
  | nil => rfl
  | cons x xs ih =>
    rw [List.flatMap_cons, List.countP_append, List.map_cons, List.sum_cons, ih]

lemma sum_ite_range (i0 : ℕ) :
    ∀ n : ℕ, (((List.range n).map (fun i => if i = i0 then (1 : ℕ) else 0)).sum) =
      if i0 < n then 1 else 0 := by
  intro n
  induction n with
  | zero => simp
  | succ m ih =>
    rw [List.range_succ, List.map_append, List.sum_append, ih]
    simp only [List.map_cons, List.map_nil, List.sum_cons, List.sum_nil]
    split_ifs <;> omega

/-- Each in-range coordinate appears in exactly one cached subgrid. -/
lemma countP_range_ite (j0 : ℕ) :
    ∀ n : ℕ, (List.range n).countP (fun j => decide (j = j0)) =
      if j0 < n then 1 else 0 := by
  intro n
  induction n with
  | zero => rfl
  | succ m ih =>
    rw [List.range_succ, List.countP_append, ih, List.countP_cons,
      List.countP_nil]
    simp only [decide_eq_true_eq]
    split_ifs <;> omega

lemma countP_subgrids {r c : ℕ} {p : Coord} (hp : in_range (r * c) p) :
    ((set_subgrid_coordinates r c).countP (fun sub => decide (p ∈ sub))) = 1 := by
  have hr : 0 < r := by
    rcases Nat.eq_zero_or_pos r with h0 | h0
    · subst h0; simp [in_range] at hp
    · exact h0
  have hc : 0 < c := by
    rcases Nat.eq_zero_or_pos c with h0 | h0
    · subst h0; simp [in_range] at hp
    · exact h0
  obtain ⟨hmem, hi, hj⟩ := tile_cover hp
  rw [set_subgrid_coordinates_eq, countP_flatMap_eq]
  have hinner : ∀ i : ℕ, (((List.range r).map (fun j => tile r c i j)).countP
      (fun sub => decide (p ∈ sub))) = if i = p.1 / r then 1 else 0 := by
    intro i
    rw [List.countP_map]
    have hpt : ∀ j : ℕ, ((fun sub => decide (p ∈ sub)) ∘ (fun j => tile r c i j)) j =
        decide (i = p.1 / r ∧ j = p.2 / c) := by
      intro j
      simp only [Function.comp_apply]
      by_cases hmem2 : p ∈ tile r c i j
      · obtain ⟨h1, h2⟩ := (mem_tile_iff_div hr hc).mp hmem2
        rw [decide_eq_true hmem2, decide_eq_true ⟨h1.symm, h2.symm⟩]
      · have hno : ¬ (i = p.1 / r ∧ j = p.2 / c) := by
          intro ⟨h1, h2⟩
          exact hmem2 ((mem_tile_iff_div hr hc).mpr ⟨h1.symm, h2.symm⟩)
        rw [decide_eq_false hmem2, decide_eq_false hno]
    rw [List.countP_congr (fun j _ => by rw [hpt j])]
    by_cases hieq : i = p.1 / r
    · rw [if_pos hieq]
      have hpt2 : ∀ (j : ℕ), j ∈ List.range r →
          ((decide (i = p.1 / r ∧ j = p.2 / c)) = true ↔
            (decide (j = p.2 / c)) = true) := by
        intro j _
        simp only [decide_eq_true_eq]
        exact ⟨fun hand => hand.2, fun h2 => ⟨hieq, h2⟩⟩
      rw [List.countP_congr hpt2, countP_range_ite, if_pos hj]
    · rw [if_neg hieq]
      refine List.countP_eq_zero.mpr ?_
      intro j _
      simp only [decide_eq_true_eq]
      exact fun hand => hieq hand.1
  rw [List.map_congr_left (fun i _ => hinner i), sum_ite_range, if_pos hi]

lemma length_sub_coords (r c : ℕ) : (sub_coords r c).length = r * c := by
  unfold sub_coords
  rw [List.length_flatMap]
  have : (List.map (List.length ∘ fun a => (List.range c).map (fun b => (a, b)))
      (List.range r)) = List.replicate r c := by
    rw [show (List.length ∘ fun a => (List.range c).map (fun b : ℕ => (a, b))) =
        Function.const ℕ c from funext (fun a => by
          simp [Function.comp_apply, List.length_map, List.length_range])]
    rw [List.map_const, List.length_range]
  rw [this, List.sum_replicate, smul_eq_mul]

lemma length_tile (r c i j : ℕ) : (tile r c i j).length = r * c := by
  unfold tile
  rw [List.length_map, length_sub_coords]

lemma length_set_subgrid_coordinates (r c : ℕ) :
    (set_subgrid_coordinates r c).length = c * r := by
  rw [set_subgrid_coordinates_eq, List.length_flatMap]
  have : (List.map (List.length ∘ fun i =>
      (List.range r).map (fun j => tile r c i j)) (List.range c)) =
      List.replicate c r := by
    rw [show (List.length ∘ fun i =>
        (List.range r).map (fun j => tile r c i j)) = Function.const ℕ r from
      funext (fun i => by
        simp [Function.comp_apply, List.length_map, List.length_range])]
    rw [List.map_const, List.length_range]
  rw [this, List.sum_replicate, smul_eq_mul]

lemma nodup_sub_coords (r c : ℕ) : (sub_coords r c).Nodup := by
  unfold sub_coords
  rw [List.nodup_flatMap]
  constructor
  · intro a _
    exact (List.nodup_range c).map (fun x y hxy => (Prod.ext_iff.mp hxy).2)
  · have : ∀ a a' : ℕ, a ≠ a' →
        (List.Disjoint on fun a => (List.range c).map (fun b => (a, b))) a a' := by
      intro a a' hne q hq hq'
      obtain ⟨b, _, hb⟩ := List.mem_map.mp hq
      obtain ⟨b', _, hb'⟩ := List.mem_map.mp hq'
      rw [← hb'] at hb
      exact hne (Prod.ext_iff.mp hb).1
    exact List.Pairwise.imp_of_mem (fun {a a'} _ _ h => this a a' h)
      ((List.nodup_range r).pairwise_of_forall_ne (fun a _ a' _ h => h) |>.imp
        (fun h => h))

lemma nodup_tile (r c i j : ℕ) : (tile r c i j).Nodup := by
  unfold tile
  refine (nodup_sub_coords r c).map ?_
  intro ab ab' hinj
  obtain ⟨h1, h2⟩ := Prod.ext_iff.mp hinj
  simp only [] at h1 h2
  exact Prod.ext_iff.mpr ⟨by omega, by omega⟩

lemma sub_mem_in_range {r c : ℕ} {sub : List Coord} {q : Coord}
    (hsub : sub ∈ set_subgrid_coordinates r c) (hq : q ∈ sub) :
    in_range (r * c) q := by
  obtain ⟨i, j, hi, hj, rfl⟩ := mem_set_subgrid_coordinates.mp hsub
  exact tile_member_in_range hi hj hq

lemma sub_nodup_of_mem {r c : ℕ} {sub : List Coord}
    (hsub : sub ∈ set_subgrid_coordinates r c) : sub.Nodup := by
  obtain ⟨i, j, _, _, rfl⟩ := mem_set_subgrid_coordinates.mp hsub
  exact nodup_tile r c i j

lemma sub_length_of_mem {r c : ℕ} {sub : List Coord}
    (hsub : sub ∈ set_subgrid_coordinates r c) : sub.length = r * c := by
  obtain ⟨i, j, _, _, rfl⟩ := mem_set_subgrid_coordinates.mp hsub
  exact length_tile r c i j

/-- Two coordinates of one cached subgrid see each other through
`__get_subgrid_from_coord`: the subgrid found for `p` is the unique one
containing it, hence the one containing both. -/
lemma mem_subgrid_of_shared {r c : ℕ} {sub : List Coord} {p q : Coord}
    (hsub : sub ∈ set_subgrid_coordinates r c) (hp : p ∈ sub) (hq : q ∈ sub) :
    q ∈ (get_subgrid_from_coord (set_subgrid_coordinates r c) p).getD [] := by
  have hpr := sub_mem_in_range hsub hp
  have hr : 0 < r := by
    rcases Nat.eq_zero_or_pos r with h0 | h0
    · subst h0; simp [in_range] at hpr
    · exact h0
  have hc : 0 < c := by
    rcases Nat.eq_zero_or_pos c with h0 | h0
    · subst h0; simp [in_range] at hpr
    · exact h0
  obtain ⟨i, j, hi, hj, rfl⟩ := mem_set_subgrid_coordinates.mp hsub
  obtain ⟨hd1, hd2⟩ := (mem_tile_iff_div hr hc).mp hp
  rw [get_subgrid_from_coord_eq hpr, hd1, hd2]
  exact hq

/-! ### What a successful load guarantees -/

lemma mapM_option_spec {α β : Type} (f : α → Option β) :
    ∀ (l : List α) (out : List β), l.mapM f = some out →
      out.length = l.length ∧
      ∀ k, k < l.length →
        ∃ x y, l[k]? = some x ∧ out[k]? = some y ∧ f x = some y := by
  intro l
  induction l with
  | nil =>
    intro out h
    rw [← List.mapM'_eq_mapM] at h
    simp only [List.mapM'] at h
    cases h
    refine ⟨rfl, ?_⟩
    intro k hk
    simp at hk
  | cons x xs ih =>
    intro out h
    rw [← List.mapM'_eq_mapM] at h
    simp only [List.mapM', Option.bind_eq_bind, Option.bind_eq_some] at h
    obtain ⟨y, hy, ys, hys, hout⟩ := h
    have hout' : out = y :: ys := by
      simpa using hout.symm
    subst hout'
    rw [List.mapM'_eq_mapM] at hys
    obtain ⟨hlen, hcell⟩ := ih ys hys
    refine ⟨by simp [hlen], ?_⟩
    intro k hk
    match k with
    | 0 => exact ⟨x, y, by simp, by simp, hy⟩
    | k + 1 =>
      obtain ⟨x', y', h1, h2, h3⟩ := hcell k (by simp at hk; omega)
      exact ⟨x', y', by simpa using h1, by simpa using h2, h3⟩

lemma convert_some_spec {rows : List (List String)} {b : Board}
    (h : convert_grid_str_to_int rows = some b) :
    b.length = rows.length ∧
    (∀ k, k < rows.length →
      (b.getD k []).length = (rows.getD k []).length) ∧
    (∀ k t, k < rows.length → t < (rows.getD k []).length →
      py_int ((rows.getD k []).getD t "") =
        some ((b.getD k []).getD t 0)) := by
  obtain ⟨hlen, hrow⟩ := mapM_option_spec _ rows b h
  refine ⟨hlen, ?_, ?_⟩
  · intro k hk
    obtain ⟨row, brow, h1, h2, h3⟩ := hrow k hk
    obtain ⟨hlen2, _⟩ := mapM_option_spec _ row brow h3
    rw [List.getD_eq_getElem?_getD, List.getD_eq_getElem?_getD, h1, h2]
    simpa using hlen2
  · intro k t hk ht
    obtain ⟨row, brow, h1, h2, h3⟩ := hrow k hk
    obtain ⟨hlen2, hcell⟩ := mapM_option_spec _ row brow h3
    simp only [List.getD_eq_getElem?_getD] at ht ⊢
    rw [h1] at ht ⊢
    rw [h2]
    simp only [Option.getD_some] at ht ⊢
    obtain ⟨s, z, hs1, hs2, hs3⟩ := hcell t ht
    rw [hs1, hs2]
    simpa using hs3

lemma mem_set_protected {b : Board} {p : Coord} :
    p ∈ set_protected_coordinates b ↔
      p.1 < b.length ∧ p.2 < b.length ∧ get_cell b p ≠ 0 := by
  unfold set_protected_coordinates
  constructor
  · intro h
    obtain ⟨i, hi, hp⟩ := List.mem_flatMap.mp h
    obtain ⟨j, hj, hpj⟩ := List.mem_filterMap.mp hp
    by_cases hz : get_cell b (i, j) ≠ 0
    · rw [if_pos hz] at hpj
      cases hpj
      exact ⟨List.mem_range.mp hi, List.mem_range.mp hj, hz⟩
    · rw [if_neg hz] at hpj
      cases hpj
  · intro ⟨h1, h2, h3⟩
    refine List.mem_flatMap.mpr ⟨p.1, List.mem_range.mpr h1,
      List.mem_filterMap.mpr ⟨p.2, List.mem_range.mpr h2, ?_⟩⟩
    rw [if_pos (by simpa using h3)]

lemma load_success_spec {st st' : PyState} {rows : List (List String)}
    {sr sc : ℕ}
    (h : load_board_csv st (some rows) sr sc = (PyRet.pyTrue, st')) :
    ∃ b, convert_grid_str_to_int rows = some b ∧
      (∀ row ∈ rows, row.length = rows.length) ∧
      sr * sc = rows.length ∧
      st' = { st with
        board := some b
        sudoku_N := some rows.length
        subgrid_row_count := some sr
        subgrid_column_count := some sc
        subgrid_coordinates := some (set_subgrid_coordinates sr sc)
        protected_coordinates := set_protected_coordinates b } := by
  have h' : (if ¬ (∀ row ∈ rows, row.length = rows.length)
      then (PyRet.pyFalse, st)
      else if sr * sc ≠ rows.length then (PyRet.pyNone, st)
      else match convert_grid_str_to_int rows with
        | none => (PyRet.pyFalse, st)
        | some b =>
          (PyRet.pyTrue,
            { st with
              board := some b
              sudoku_N := some rows.length
              subgrid_row_count := some sr
              subgrid_column_count := some sc
              subgrid_coordinates := some (set_subgrid_coordinates sr sc)
              protected_coordinates := set_protected_coordinates b })) =
      (PyRet.pyTrue, st') := h
  by_cases hsq : ∀ row ∈ rows, row.length = rows.length
  · rw [if_neg (not_not_intro hsq)] at h'
    by_cases hsz : sr * sc ≠ rows.length
    · rw [if_pos hsz] at h'
      simp at h'
    · rw [if_neg hsz] at h'
      rcases hconv : convert_grid_str_to_int rows with _ | b
      · rw [hconv] at h'
        simp at h'
      · rw [hconv] at h'
        have hst := (Prod.ext_iff.mp h').2
        exact ⟨b, rfl, hsq, by omega, hst.symm⟩
  · rw [if_pos hsq] at h'
    simp at h'

/-- A successfully loaded board is a well-formed square grid. -/
lemma load_success_shape {rows : List (List String)} {b : Board}
    (hconv : convert_grid_str_to_int rows = some b)
    (hsq : ∀ row ∈ rows, row.length = rows.length) :
    grid_shape rows.length b := by
  obtain ⟨hlen, hrows, -⟩ := convert_some_spec hconv
  refine ⟨hlen, ?_⟩
  intro k hk
  rw [hrows k hk]
  have hget : rows.getD k [] = rows[k] := by
    rw [List.getD_eq_getElem?_getD, List.getElem?_eq_getElem hk]
    rfl
  rw [hget]
  exact hsq _ (List.getElem_mem hk)

/-! ### Frame and soundness of the search -/

lemma coord_of_inj {N i1 i2 : ℕ} (_h1 : i1 < N ^ 2) (_h2 : i2 < N ^ 2)
    (h : get_coord_from_index N i1 = get_coord_from_index N i2) : i1 = i2 := by
  have e1 := idx_of_coord_of (N := N) (i := i1)
  have e2 := idx_of_coord_of (N := N) (i := i2)
  rw [← e1, ← e2, h]

lemma digits_mem_bounds {N : ℕ} :
    ∀ d ∈ (List.range N).map (· + 1), 1 ≤ d ∧ d ≤ N := by
  intro d hd
  obtain ⟨t, ht, rfl⟩ := List.mem_map.mp hd
  have := List.mem_range.mp ht
  omega

lemma try_digits_shape {N : ℕ} {subs : List (List Coord)}
    {rec : Board → Option (Bool × Board)} {p : Coord} {n : ℕ}
    (hrec : ∀ b1 r b2, rec b1 = some (r, b2) →
      grid_shape n b1 → grid_shape n b2) :
    ∀ ds b1 r b2, try_digits N subs rec p ds b1 = some (r, b2) →
      grid_shape n b1 → grid_shape n b2 := by
  intro ds
  induction ds with
  | nil =>
    intro b1 r b2 h hb1
    rw [try_digits] at h
    cases h
    exact hb1
  | cons d ds ih =>
    intro b1 r b2 h hb1
    rw [try_digits] at h
    split at h
    · rcases hr : rec (set_cell b1 p (d : ℤ)) with _ | ⟨_ | _, b3⟩ <;>
        rw [hr] at h
      · cases h
      · exact ih b3 r b2 h (hrec _ _ _ hr (grid_shape_set_cell hb1))
      · cases h
        exact hrec _ _ _ hr (grid_shape_set_cell hb1)
    · exact ih b1 r b2 h hb1

lemma process_shape {N : ℕ} {subs : List (List Coord)} {prot : List Coord}
    {n : ℕ} :
    ∀ fuel i (b : Board) r b2,
      process_board_F N subs prot fuel i b = some (r, b2) →
      grid_shape n b → grid_shape n b2 := by
  intro fuel
  induction fuel with
  | zero => intro i b r b2 h; cases h
  | succ f ih =>
    intro i b r b2 h hb
    by_cases hge : N ^ 2 ≤ i
    · rw [process_board_F_base hge] at h
      cases h
      exact hb
    · rw [process_board_F_unfold (by omega)] at h
      rcases htd : try_digits N subs
          (fun b1 => process_board_F N subs prot f (next_index N prot i) b1)
          (get_coord_from_index N i) ((List.range N).map (· + 1)) b with
        _ | ⟨_ | _, b1⟩ <;> rw [htd] at h
      · cases h
      · have := try_digits_shape (fun b1 r b2 hr hb1 => ih _ b1 r b2 hr hb1)
          ((List.range N).map (· + 1)) b _ _ htd hb
        cases h
        exact grid_shape_set_cell this
      · cases h
        exact try_digits_shape (fun b1 r b2 hr hb1 => ih _ b1 r b2 hr hb1)
          ((List.range N).map (· + 1)) b _ _ htd hb

lemma try_digits_frame {N : ℕ} {subs : List (List Coord)}
    {rec : Board → Option (Bool × Board)} {p : Coord} {X : Coord → Prop}
    (hrec : ∀ b1 r b2, rec b1 = some (r, b2) →
      ∀ q : Coord, X q → get_cell b2 q = get_cell b1 q) :
    ∀ ds b1 r b2, try_digits N subs rec p ds b1 = some (r, b2) →
      ∀ q : Coord, X q → q ≠ p → get_cell b2 q = get_cell b1 q := by
  intro ds
  induction ds with
  | nil =>
    intro b1 r b2 h q hX hqp
    rw [try_digits] at h
    cases h
    rfl
  | cons d ds ih =>
    intro b1 r b2 h q hX hqp
    rw [try_digits] at h
    split at h
    · rcases hr : rec (set_cell b1 p (d : ℤ)) with _ | ⟨_ | _, b3⟩ <;>
        rw [hr] at h
      · cases h
      · rw [ih b3 r b2 h q hX hqp, hrec _ _ _ hr q hX,
          get_cell_set_cell_ne hqp]
      · cases h
        rw [hrec _ _ _ hr q hX, get_cell_set_cell_ne hqp]
    · exact ih b1 r b2 h q hX hqp

lemma process_frame {N : ℕ} {subs : List (List Coord)} {prot : List Coord} :
    ∀ fuel i (b : Board) r b2,
      process_board_F N subs prot fuel i b = some (r, b2) →
      ∀ q : Coord,
        (∀ j ∈ ent_list N prot i, get_coord_from_index N j ≠ q) →
        get_cell b2 q = get_cell b q := by
  intro fuel
  induction fuel with
  | zero => intro i b r b2 h; cases h
  | succ f ih =>
    intro i b r b2 h q hX
    by_cases hge : N ^ 2 ≤ i
    · rw [process_board_F_base hge] at h
      cases h
      rfl
    · have hi : i < N ^ 2 := by omega
      have hent : ent_list N prot i =
          i :: ent_list N prot (next_index N prot i) := by
        rw [ent_list, dif_pos hi]
      have hqp : q ≠ get_coord_from_index N i := by
        intro hc
        exact hX i (hent ▸ List.mem_cons_self _ _) hc.symm
      have hXni : ∀ j ∈ ent_list N prot (next_index N prot i),
          get_coord_from_index N j ≠ q := by
        intro j hj
        exact hX j (hent ▸ List.mem_cons_of_mem _ hj)
      have hloop := @try_digits_frame N subs
        (fun b1 => process_board_F N subs prot f (next_index N prot i) b1)
        (get_coord_from_index N i)
        (fun q => ∀ j ∈ ent_list N prot (next_index N prot i),
          get_coord_from_index N j ≠ q)
        (fun b1 r b2 hr q hXq => ih _ b1 r b2 hr q hXq)
      rw [process_board_F_unfold hi] at h
      rcases htd : try_digits N subs
          (fun b1 => process_board_F N subs prot f (next_index N prot i) b1)
          (get_coord_from_index N i) ((List.range N).map (· + 1)) b with
        _ | ⟨_ | _, b1⟩ <;> rw [htd] at h
      · cases h
      · cases h
        rw [get_cell_set_cell_ne hqp]
        exact hloop ((List.range N).map (· + 1)) b _ _ htd q hXni hqp
      · cases h
        exact hloop ((List.range N).map (· + 1)) b _ _ htd q hXni hqp

lemma placed_ok_of_tail {N : ℕ} {subs : List (List Coord)}
    {prot : List Coord} {i j : ℕ} {b2 : Board}
    (h : placed_ok N subs prot (next_index N prot i) b2 j) :
    placed_ok N subs prot i b2 j := by
  obtain ⟨d, h1, h2, h3, h4⟩ := h
  refine ⟨d, h1, h2, h3, ?_⟩
  intro q hq hqp hexcl
  refine h4 q hq hqp ?_
  intro j2 hj2 hlt
  exact hexcl j2 (ent_list_tail hj2) hlt

lemma try_digits_sound {N : ℕ} {subs : List (List Coord)}
    {prot : List Coord} {i : ℕ} {rec : Board → Option (Bool × Board)}
    (hi : i < N ^ 2)
    (hrec_frame : ∀ b1 r b2, rec b1 = some (r, b2) →
      ∀ q : Coord, (∀ j ∈ ent_list N prot (next_index N prot i),
        get_coord_from_index N j ≠ q) → get_cell b2 q = get_cell b1 q)
    (hrec_sound : ∀ b1 b2, rec b1 = some (true, b2) → grid_shape N b1 →
      ∀ j ∈ ent_list N prot (next_index N prot i),
        placed_ok N subs prot (next_index N prot i) b2 j)
    (hrec_shape : ∀ b1 r b2, rec b1 = some (r, b2) →
      grid_shape N b1 → grid_shape N b2) :
    ∀ ds, (∀ d ∈ ds, 1 ≤ d ∧ d ≤ N) → ∀ b1 b2, grid_shape N b1 →
      try_digits N subs rec (get_coord_from_index N i) ds b1 =
        some (true, b2) →
      ∀ j ∈ ent_list N prot i, placed_ok N subs prot i b2 j := by
  intro ds
  induction ds with
  | nil =>
    intro _ b1 b2 _ h
    rw [try_digits] at h
    simp at h
  | cons d ds ih =>
    intro hds b1 b2 hb1 h
    have hent : ent_list N prot i =
        i :: ent_list N prot (next_index N prot i) := by
      rw [ent_list, dif_pos hi]
    rw [try_digits] at h
    split at h
    · rename_i hval
      rcases hr : rec (set_cell b1 (get_coord_from_index N i) (d : ℤ)) with
        _ | ⟨_ | _, b3⟩ <;> rw [hr] at h
      · cases h
      · -- the recursive call failed; the loop moves on with its board
        exact ih (fun d hd => hds d (List.mem_cons_of_mem _ hd)) b3 b2
          (hrec_shape _ _ _ hr (grid_shape_set_cell hb1)) h
      · -- the recursive call succeeded with the final board
        cases h
        intro j hj
        rw [hent] at hj
        rcases List.mem_cons.mp hj with rfl | hj'
        · -- the cell entered here: digit d was validated against b1
          obtain ⟨hd1, hd2⟩ := hds d (List.mem_cons_self _ _)
          have hp_range : in_range N (get_coord_from_index N j) :=
            coord_of_in_range hi
          have hnotent : ∀ j2 ∈ ent_list N prot (next_index N prot j),
              get_coord_from_index N j2 ≠ get_coord_from_index N j := by
            intro j2 hj2 hc
            have hb := ent_list_mem_bounds hj2
            have hgt := @next_index_gt N prot j
            have := coord_of_inj hb.2 hi hc
            omega
          have hcell : get_cell b2 (get_coord_from_index N j) = (d : ℤ) := by
            rw [hrec_frame _ _ _ hr _ hnotent]
            exact get_cell_set_cell_self' hb1 hp_range
          refine ⟨d, hd1, hd2, hcell, ?_⟩
          intro q hq hqp hexcl
          have hexcl_ni : ∀ j2 ∈ ent_list N prot (next_index N prot j),
              get_coord_from_index N j2 ≠ q := by
            intro j2 hj2
            have hb := ent_list_mem_bounds hj2
            have hgt := @next_index_gt N prot j
            exact hexcl j2 (ent_list_tail hj2) (by omega)
          have htrans : get_cell b2 q = get_cell b1 q := by
            rw [hrec_frame _ _ _ hr _ hexcl_ni, get_cell_set_cell_ne hqp]
          rw [htrans]
          exact validate_iff.mp hval q hq
        · -- a cell entered deeper in the recursion
          exact placed_ok_of_tail (hrec_sound _ _ hr
            (grid_shape_set_cell hb1) j hj')
    · exact ih (fun d hd => hds d (List.mem_cons_of_mem _ hd)) b1 b2 hb1 h

lemma process_sound {N : ℕ} {subs : List (List Coord)} {prot : List Coord} :
    ∀ fuel i (b : Board) b2,
      process_board_F N subs prot fuel i b = some (true, b2) →
      grid_shape N b →
      ∀ j ∈ ent_list N prot i, placed_ok N subs prot i b2 j := by
  intro fuel
  induction fuel with
  | zero => intro i b b2 h; cases h
  | succ f ih =>
    intro i b b2 h hb
    by_cases hge : N ^ 2 ≤ i
    · intro j hj
      rw [ent_list, dif_neg (by omega)] at hj
      cases hj
    · have hi : i < N ^ 2 := by omega
      rw [process_board_F_unfold hi] at h
      rcases htd : try_digits N subs
          (fun b1 => process_board_F N subs prot f (next_index N prot i) b1)
          (get_coord_from_index N i) ((List.range N).map (· + 1)) b with
        _ | ⟨_ | _, b1⟩ <;> rw [htd] at h
      · cases h
      · cases h
      · cases h
        exact try_digits_sound hi
          (fun b1 r b2 hr q hXq => process_frame f _ b1 r b2 hr q hXq)
          (fun b1 b2 hr hb1 => ih _ b1 b2 hr hb1)
          (fun b1 r b2 hr hb1 => process_shape f _ b1 r b2 hr hb1)
          ((List.range N).map (· + 1)) digits_mem_bounds b b2 hb htd

/-! ### From soundness to full Sudoku validity -/

lemma same_unit_symm {r c : ℕ} {p q : Coord} (h : same_unit r c p q) :
    same_unit r c q p := by
  rcases h with h | h | ⟨sub, hsub, hp, hq⟩
  · exact Or.inl h.symm
  · exact Or.inr (Or.inl h.symm)
  · exact Or.inr (Or.inr ⟨sub, hsub, hq, hp⟩)

lemma same_unit_mem_peers {r c N : ℕ} (_hN : N = r * c) {p q : Coord}
    (_hp : in_range N p) (hq : in_range N q)
    (hu : same_unit r c p q) :
    q ∈ peers N (set_subgrid_coordinates r c) p := by
  unfold peers
  rcases hu with h | h | ⟨sub, hsub, hps, hqs⟩
  · refine List.mem_append.mpr (Or.inl (List.mem_flatMap.mpr
      ⟨q.2, List.mem_range.mpr hq.2, ?_⟩))
    have : (p.1, q.2) = q := Prod.ext_iff.mpr ⟨h, rfl⟩
    rw [this]
    simp
  · refine List.mem_append.mpr (Or.inl (List.mem_flatMap.mpr
      ⟨q.1, List.mem_range.mpr hq.1, ?_⟩))
    have : (q.1, p.2) = q := Prod.ext_iff.mpr ⟨rfl, h⟩
    rw [this]
    simp
  · refine List.mem_append.mpr (Or.inr ?_)
    exact mem_subgrid_of_shared hsub hps hqs

lemma idx_of_inj {N : ℕ} {p q : Coord} (hp : in_range N p)
    (hq : in_range N q) (h : idx_of N p = idx_of N q) : p = q := by
  rw [← coord_of_idx_of hp, ← coord_of_idx_of hq, h]

/-- After a successful run from index 0 every in-range cell holds a value
in `1 .. N`, provided the pre-filled values are themselves in `1 .. N`. -/
lemma cells_in_range {r c N : ℕ} (hN : N = r * c)
    {prot : List Coord} {b b2 : Board} {fuel : ℕ}
    (hb : grid_shape N b)
    (hprot : ∀ p : Coord, p ∈ prot ↔
      (p.1 < N ∧ p.2 < N ∧ get_cell b p ≠ 0))
    (hrange : ∀ p : Coord, in_range N p →
      0 ≤ get_cell b p ∧ get_cell b p ≤ (N : ℤ))
    (hrun : process_board_F N (set_subgrid_coordinates r c) prot fuel 0 b =
      some (true, b2)) :
    ∀ p : Coord, in_range N p →
      1 ≤ get_cell b2 p ∧ get_cell b2 p ≤ (N : ℤ) := by
  intro p hp
  have hidx : idx_of N p < N ^ 2 := idx_of_lt hp
  have hcoord : get_coord_from_index N (idx_of N p) = p := coord_of_idx_of hp
  by_cases hent : idx_of N p ∈ ent_list N prot 0
  · obtain ⟨d, hd1, hd2, hval, -⟩ :=
      process_sound fuel 0 b b2 hrun hb _ hent
    rw [hcoord] at hval
    rw [hval]
    constructor
    · exact_mod_cast hd1
    · exact_mod_cast hd2
  · have hpr : p ∈ prot := by
      by_contra hnp
      exact hent (ent_list_cover (Nat.zero_le _) hidx
        (by rw [hcoord]; exact hnp))
    have hneq : get_cell b p ≠ 0 := ((hprot p).mp hpr).2.2
    have huntouched : get_cell b2 p = get_cell b p := by
      refine process_frame fuel 0 b _ b2 hrun p ?_
      intro j hj hc
      have hb2 := ent_list_mem_bounds hj
      have : j = idx_of N p := by
        rw [← hcoord] at hc
        exact coord_of_inj hb2.2 hidx hc
      exact hent (this ▸ hj)
    rw [huntouched]
    have := hrange p hp
    omega

/-- After a successful run from index 0, two distinct in-range cells of a
common unit hold distinct values, provided equal pre-filled values never
share a unit. -/
lemma cells_distinct {r c N : ℕ} (hN : N = r * c)
    {prot : List Coord} {b b2 : Board} {fuel : ℕ}
    (hb : grid_shape N b)
    (hprot : ∀ p : Coord, p ∈ prot ↔
      (p.1 < N ∧ p.2 < N ∧ get_cell b p ≠ 0))
    (hconsist : ∀ p q : Coord, in_range N p → in_range N q → p ≠ q →
      same_unit r c p q → get_cell b p ≠ 0 → get_cell b p ≠ get_cell b q)
    (hrun : process_board_F N (set_subgrid_coordinates r c) prot fuel 0 b =
      some (true, b2)) :
    ∀ p q : Coord, in_range N p → in_range N q → p ≠ q →
      same_unit r c p q → get_cell b2 p ≠ get_cell b2 q := by
  have huntouched : ∀ p : Coord, in_range N p →
      idx_of N p ∉ ent_list N prot 0 →
      p ∈ prot ∧ get_cell b2 p = get_cell b p := by
    intro p hp hent
    have hidx : idx_of N p < N ^ 2 := idx_of_lt hp
    have hcoord : get_coord_from_index N (idx_of N p) = p := coord_of_idx_of hp
    have hpr : p ∈ prot := by
      by_contra hnp
      exact hent (ent_list_cover (Nat.zero_le _) hidx
        (by rw [hcoord]; exact hnp))
    refine ⟨hpr, ?_⟩
    refine process_frame fuel 0 b _ b2 hrun p ?_
    intro j hj hc
    have hb2 := ent_list_mem_bounds hj
    have : j = idx_of N p := by
      rw [← hcoord] at hc
      exact coord_of_inj hb2.2 hidx hc
    exact hent (this ▸ hj)
  -- the asymmetric core: if `q` is entered no earlier than `p`, its digit
  -- is distinct from the final value at `p`
  have hcore : ∀ p q : Coord, in_range N p → in_range N q → p ≠ q →
      same_unit r c p q → idx_of N q ∈ ent_list N prot 0 →
      (idx_of N p ∈ ent_list N prot 0 → idx_of N p < idx_of N q) →
      get_cell b2 q ≠ get_cell b2 p := by
    intro p q hp hq hne hu hentq hlt
    have hidxp : idx_of N p < N ^ 2 := idx_of_lt hp
    have hcoordq : get_coord_from_index N (idx_of N q) = q := coord_of_idx_of hq
    have hcoordp : get_coord_from_index N (idx_of N p) = p := coord_of_idx_of hp
    obtain ⟨d, hd1, hd2, hval, hpeers⟩ :=
      process_sound fuel 0 b b2 hrun hb _ hentq
    rw [hcoordq] at hval hpeers
    have hppeer : p ∈ peers N (set_subgrid_coordinates r c) q :=
      same_unit_mem_peers hN hq hp (same_unit_symm hu)
    have hd_ne : (d : ℤ) ≠ get_cell b2 p := by
      refine hpeers p hppeer (fun hc => hne hc) ?_
      intro j2 hj2 hgt hc
      have hb2 := ent_list_mem_bounds hj2
      have : j2 = idx_of N p := by
        rw [← hcoordp] at hc
        exact coord_of_inj hb2.2 hidxp hc
      subst this
      exact absurd (hlt hj2) (by omega)
    rw [hval]
    exact hd_ne
  intro p q hp hq hne hu
  by_cases hentp : idx_of N p ∈ ent_list N prot 0 <;>
    by_cases hentq : idx_of N q ∈ ent_list N prot 0
  · -- both entered: use the later one
    have hij : idx_of N p ≠ idx_of N q := by
      intro hc
      exact hne (idx_of_inj hp hq hc)
    rcases Nat.lt_or_ge (idx_of N p) (idx_of N q) with hlt | hge
    · exact (hcore p q hp hq hne hu hentq (fun _ => hlt)).symm
    · exact hcore q p hq hp (Ne.symm hne) (same_unit_symm hu)
        hentp (fun _ => by omega)
  · -- p entered, q untouched
    obtain ⟨-, hq2⟩ := huntouched q hq hentq
    exact hcore q p hq hp (Ne.symm hne) (same_unit_symm hu)
      hentp (fun hc => absurd hc hentq)
  · -- q entered, p untouched
    obtain ⟨-, hp2⟩ := huntouched p hp hentp
    exact (hcore p q hp hq hne hu hentq (fun hc => absurd hc hentp)).symm
  · -- both untouched: two distinct protected values sharing a unit
    obtain ⟨hpr, hp2⟩ := huntouched p hp hentp
    obtain ⟨hqr, hq2⟩ := huntouched q hq hentq
    rw [hp2, hq2]
    exact hconsist p q hp hq hne hu ((hprot p).mp hpr).2.2

/-- A list of `N` distinct in-range coordinates whose final values are
pairwise distinct and all within `1 .. N` carries every such value exactly
once. -/
lemma count_one_of_unit {N : ℕ} {b2 : Board} {L : List Coord}
    (hlen : L.length = N) (hnodup : L.Nodup)
    (hmem : ∀ p ∈ L, in_range N p)
    (hvals : ∀ p : Coord, in_range N p →
      1 ≤ get_cell b2 p ∧ get_cell b2 p ≤ (N : ℤ))
    (hdist : ∀ p q : Coord, p ∈ L → q ∈ L → p ≠ q →
      get_cell b2 p ≠ get_cell b2 q) :
    ∀ v : ℤ, 1 ≤ v → v ≤ (N : ℤ) →
      ((L.map (get_cell b2)).count v) = 1 := by
  intro v hv1 hv2
  have hnodup_vals : (L.map (get_cell b2)).Nodup := by
    refine List.Nodup.map_on ?_ hnodup
    intro x hx y hy hxy
    by_contra hne
    exact hdist x y hx hy hne hxy
  have hsubset : (L.map (get_cell b2)).toFinset ⊆ Finset.Icc (1 : ℤ) N := by
    intro w hw
    obtain ⟨p, hp, rfl⟩ := List.mem_map.mp (List.mem_toFinset.mp hw)
    have := hvals p (hmem p hp)
    exact Finset.mem_Icc.mpr ⟨this.1, this.2⟩
  have hcard1 : (L.map (get_cell b2)).toFinset.card = N := by
    rw [List.toFinset_card_of_nodup hnodup_vals, List.length_map, hlen]
  have hcard2 : (Finset.Icc (1 : ℤ) (N : ℤ)).card = N := by
    rw [Int.card_Icc]
    simp
  have heq : (L.map (get_cell b2)).toFinset = Finset.Icc (1 : ℤ) N :=
    Finset.eq_of_subset_of_card_le hsubset (by omega)
  have hv : v ∈ L.map (get_cell b2) := by
    rw [← List.mem_toFinset, heq]
    exact Finset.mem_Icc.mpr ⟨hv1, hv2⟩
  exact List.count_eq_one_of_mem hnodup_vals hv

/-- Success of the search on a loaded board whose givens are in range and
mutually consistent yields a fully valid board: every row, column and
cached subgrid holds every value `1 .. N` exactly once. -/
lemma solver_success_counts {r c N : ℕ} (hN : N = r * c)
    {prot : List Coord} {b b2 : Board} {fuel : ℕ}
    (hb : grid_shape N b)
    (hprot : ∀ p : Coord, p ∈ prot ↔
      (p.1 < N ∧ p.2 < N ∧ get_cell b p ≠ 0))
    (hrange : ∀ p : Coord, in_range N p →
      0 ≤ get_cell b p ∧ get_cell b p ≤ (N : ℤ))
    (hconsist : ∀ p q : Coord, in_range N p → in_range N q → p ≠ q →
      same_unit r c p q → get_cell b p ≠ 0 → get_cell b p ≠ get_cell b q)
    (hrun : process_board_F N (set_subgrid_coordinates r c) prot fuel 0 b =
      some (true, b2)) :
    ∀ v : ℤ, 1 ≤ v → v ≤ (N : ℤ) →
      (∀ x, x < N →
        (((List.range N).map (fun t => get_cell b2 (x, t))).count v = 1)) ∧
      (∀ y, y < N →
        (((List.range N).map (fun t => get_cell b2 (t, y))).count v = 1)) ∧
      (∀ sub ∈ set_subgrid_coordinates r c,
        ((sub.map (get_cell b2)).count v = 1)) := by
  intro v hv1 hv2
  have hvals := cells_in_range hN hb hprot hrange hrun
  have hdist := cells_distinct hN hb hprot hconsist hrun
  refine ⟨?_, ?_, ?_⟩
  · intro x hx
    have hrw : ((List.range N).map (fun t => get_cell b2 (x, t))) =
        (((List.range N).map (fun t => ((x, t) : Coord))).map
          (get_cell b2)) := by
      rw [List.map_map]
      rfl
    rw [hrw]
    refine count_one_of_unit ?_ ?_ ?_ hvals ?_ v hv1 hv2
    · rw [List.length_map, List.length_range]
    · exact (List.nodup_range N).map
        (fun t t' htt => (Prod.ext_iff.mp htt).2)
    · intro p hp
      obtain ⟨t, ht, rfl⟩ := List.mem_map.mp hp
      exact ⟨hx, List.mem_range.mp ht⟩
    · intro p q hp hq hne
      obtain ⟨t, ht, rfl⟩ := List.mem_map.mp hp
      obtain ⟨t', ht', rfl⟩ := List.mem_map.mp hq
      exact hdist _ _ ⟨hx, List.mem_range.mp ht⟩ ⟨hx, List.mem_range.mp ht'⟩
        hne (Or.inl rfl)
  · intro y hy
    have hrw : ((List.range N).map (fun t => get_cell b2 (t, y))) =
        (((List.range N).map (fun t => ((t, y) : Coord))).map
          (get_cell b2)) := by
      rw [List.map_map]
      rfl
    rw [hrw]
    refine count_one_of_unit ?_ ?_ ?_ hvals ?_ v hv1 hv2
    · rw [List.length_map, List.length_range]
    · exact (List.nodup_range N).map
        (fun t t' htt => (Prod.ext_iff.mp htt).1)
    · intro p hp
      obtain ⟨t, ht, rfl⟩ := List.mem_map.mp hp
      exact ⟨List.mem_range.mp ht, hy⟩
    · intro p q hp hq hne
      obtain ⟨t, ht, rfl⟩ := List.mem_map.mp hp
      obtain ⟨t', ht', rfl⟩ := List.mem_map.mp hq
      exact hdist _ _ ⟨List.mem_range.mp ht, hy⟩ ⟨List.mem_range.mp ht', hy⟩
        hne (Or.inr (Or.inl rfl))
  · intro sub hsub
    refine count_one_of_unit ?_ (sub_nodup_of_mem hsub) ?_ hvals ?_ v hv1 hv2
    · rw [sub_length_of_mem hsub, hN]
    · intro p hp
      have := sub_mem_in_range hsub hp
      rw [hN]
      exact this
    · intro p q hp hq hne
      refine hdist p q ?_ ?_ hne (Or.inr (Or.inr ⟨sub, hsub, hp, hq⟩))
      · rw [hN]; exact sub_mem_in_range hsub hp
      · rw [hN]; exact sub_mem_in_range hsub hq

/-- Claim C9: for every loaded puzzle state the solver terminates, and its
recursion depth is bounded by the total cell count: a fuel of `N^2 + 1`
frames (the top-level call plus at most `N^2` nested recursive calls, one
per strictly increasing cell index) always yields a result, and any larger
recursion budget computes the same result. -/
theorem claim_C9_depth_bound (N : ℕ) (subs : List (List Coord))
    (prot : List Coord) (b : Board) (fuel : ℕ)
    (hfuel : N ^ 2 + 1 ≤ fuel) :
    (process_board_F N subs prot (N ^ 2 + 1) 0 b).isSome ∧
    process_board_F N subs prot fuel 0 b =
      process_board_F N subs prot (N ^ 2 + 1) 0 b := by
  constructor
  · exact process_board_F_isSome (N ^ 2 + 1) b (by omega) (by omega)
  · exact process_board_F_fuel_high b (by omega) (by omega) (by omega)
      (by omega)

theorem claim_C9_depth_bound_witness :
    (2 ^ 2 + 1 ≤ 9) ∧
    ((process_board_F 2 (set_subgrid_coordinates 1 2) [] (2 ^ 2 + 1) 0
      [[0, 0], [0, 0]]).isSome ∧
    process_board_F 2 (set_subgrid_coordinates 1 2) [] 9 0 [[0, 0], [0, 0]] =
      process_board_F 2 (set_subgrid_coordinates 1 2) [] (2 ^ 2 + 1) 0
        [[0, 0], [0, 0]]) :=
  ⟨by decide, claim_C9_depth_bound 2 (set_subgrid_coordinates 1 2) []
    [[0, 0], [0, 0]] 9 (by decide)⟩

/-- Claim C10: calling `backtrack` before any successful load (board, side
length or subgrid coordinates still `None`) returns `False` without
raising and without modifying any instance state. -/
theorem claim_C10_unloaded_backtrack (st : PyState)
    (h : st.board = none ∨ st.sudoku_N = none ∨
      st.subgrid_coordinates = none) :
    backtrack st = (false, st) := by
  rcases hb : st.board with _ | b
  · unfold backtrack
    rw [hb]
  · rcases hN : st.sudoku_N with _ | N
    · unfold backtrack
      rw [hb, hN]
    · rcases hsub : st.subgrid_coordinates with _ | subs
      · unfold backtrack
        rw [hb, hN, hsub]
      · rcases h with h | h | h
        · rw [hb] at h; cases h
        · rw [hN] at h; cases h
        · rw [hsub] at h; cases h

theorem claim_C10_unloaded_backtrack_witness :
    (({} : PyState).board = none ∨ ({} : PyState).sudoku_N = none ∨
      ({} : PyState).subgrid_coordinates = none) ∧
    backtrack {} = (false, {}) :=
  ⟨Or.inl rfl, claim_C10_unloaded_backtrack {} (Or.inl rfl)⟩

/-- Claim C2 (falsified by the code): on the loaded 2 by 2 board
`[[1, 2], [2, 0]]` (subgrids 1 by 2) the solver returns failure, yet the
board is left as `[[0, 2], [2, 0]]`: the given at `(0, 0)` was zeroed, not
restored.  Index 0 is protected but the skip logic never tests the current
index, so the failing branch runs at a given cell and its final reset
destroys it. -/
theorem claim_C2_board_not_restored :
    (load_board_csv {} (some [["1", "2"], ["2", "0"]]) 1 2).1 =
      PyRet.pyTrue ∧
    (load_board_csv {} (some [["1", "2"], ["2", "0"]]) 1 2).2.board =
      some [[1, 2], [2, 0]] ∧
    (backtrack (load_board_csv {} (some [["1", "2"], ["2", "0"]]) 1 2).2).1 =
      false ∧
    (backtrack
      (load_board_csv {} (some [["1", "2"], ["2", "0"]]) 1 2).2).2.board =
      some [[0, 2], [2, 0]] := by
  decide

/-- Claim C3 (falsified by the code): on the loaded 2 by 2 board
`[[1, 0], [0, 0]]` (subgrids 1 by 2) the coordinate `(0, 0)` is protected
with loaded value `1`, yet after a successful solve the board is
`[[2, 1], [1, 2]]`: the solver overwrote the given, because only the
*next* index is ever tested for protection, never the current one. -/
theorem claim_C3_protected_overwritten :
    (load_board_csv {} (some [["1", "0"], ["0", "0"]]) 1 2).1 =
      PyRet.pyTrue ∧
    ((0, 0) : Coord) ∈
      (load_board_csv {} (some [["1", "0"], ["0", "0"]]) 1 2).2.protected_coordinates ∧
    (load_board_csv {} (some [["1", "0"], ["0", "0"]]) 1 2).2.board =
      some [[1, 0], [0, 0]] ∧
    (backtrack (load_board_csv {} (some [["1", "0"], ["0", "0"]]) 1 2).2).1 =
      true ∧
    (backtrack
      (load_board_csv {} (some [["1", "0"], ["0", "0"]]) 1 2).2).2.board =
      some [[2, 1], [1, 2]] := by
  decide

/-- Claim C4 (falsified by the code): the loaded 2 by 2 board
`[[1, 2], [2, 1]]` (subgrids 1 by 2) is completely filled and already
valid (every row, column and subgrid holds 1 and 2 exactly once), yet
`backtrack` returns failure and zeroes the cell `(0, 0)`.  Every cell of a
solved board is protected, including index 0, which the solver enters
anyway; no digit validates there, so the cell is reset and the search
fails. -/
theorem claim_C4_solved_board_fails :
    (load_board_csv {} (some [["1", "2"], ["2", "1"]]) 1 2).1 =
      PyRet.pyTrue ∧
    (load_board_csv {} (some [["1", "2"], ["2", "1"]]) 1 2).2.board =
      some [[1, 2], [2, 1]] ∧
    (∀ x ∈ [0, 1], ∀ y ∈ [0, 1],
      get_cell [[(1 : ℤ), 2], [2, 1]] (x, y) ≠ 0) ∧
    (∀ v ∈ ([1, 2] : List ℤ),
      (∀ x ∈ [0, 1], ((List.range 2).map (fun t =>
        get_cell [[(1 : ℤ), 2], [2, 1]] (x, t))).count v = 1) ∧
      (∀ y ∈ [0, 1], ((List.range 2).map (fun t =>
        get_cell [[(1 : ℤ), 2], [2, 1]] (t, y))).count v = 1) ∧
      (∀ sub ∈ set_subgrid_coordinates 1 2,
        (sub.map (get_cell [[(1 : ℤ), 2], [2, 1]])).count v = 1)) ∧
    (backtrack (load_board_csv {} (some [["1", "2"], ["2", "1"]]) 1 2).2).1 =
      false ∧
    (backtrack
      (load_board_csv {} (some [["1", "2"], ["2", "1"]]) 1 2).2).2.board =
      some [[0, 2], [2, 1]] := by
  decide

/-- Claim C5 (falsified by the code): `dup_rows9` loads as a 9 by 9 board
whose first row holds the non-zero given `2` twice (columns 0 and 1).  The
solver does report failure, but the board is *not* left unchanged: the cells
`(0, 0)` and `(0, 2)` end up zeroed, because the search enters the
protected indices 0 and 2 (the skip logic only ever skips one step). -/
theorem claim_C5_duplicate_givens :
    (load_board_csv {} (some dup_rows9) 3 3).1 = PyRet.pyTrue ∧
    (∃ b, (load_board_csv {} (some dup_rows9) 3 3).2.board = some b ∧
      get_cell b (0, 0) = 2 ∧ get_cell b (0, 1) = 2) ∧
    (backtrack (load_board_csv {} (some dup_rows9) 3 3).2).1 = false ∧
    (backtrack (load_board_csv {} (some dup_rows9) 3 3).2).2.board ≠
      (load_board_csv {} (some dup_rows9) 3 3).2.board := by
  refine ⟨by decide, ?_, by decide, by decide⟩
  refine ⟨(convert_grid_str_to_int dup_rows9).getD [], by decide, by decide,
    by decide⟩

lemma load_board_csv_some (st : PyState) (rows : List (List String))
    (sr sc : ℕ) :
    load_board_csv st (some rows) sr sc =
      if ¬ (∀ row ∈ rows, row.length = rows.length) then (PyRet.pyFalse, st)
      else if sr * sc ≠ rows.length then (PyRet.pyNone, st)
      else match convert_grid_str_to_int rows with
        | none => (PyRet.pyFalse, st)
        | some b =>
          (PyRet.pyTrue,
            { st with
              board := some b
              sudoku_N := some rows.length
              subgrid_row_count := some sr
              subgrid_column_count := some sc
              subgrid_coordinates := some (set_subgrid_coordinates sr sc)
              protected_coordinates := set_protected_coordinates b }) := rfl

/-- Claim C6, counterexample: the 2 by 2 input with cells `5` and `-3`
loads successfully even though both values are outside `[0, N] = [0, 2]`:
the loader parses any Python integer, including negatives, and never
checks the range. -/
theorem claim_C6_counterexample :
    (load_board_csv {} (some [["5", "-3"], ["2", "1"]]) 1 2).1 =
      PyRet.pyTrue ∧
    (load_board_csv {} (some [["5", "-3"], ["2", "1"]]) 1 2).2.board =
      some [[5, -3], [2, 1]] ∧
    ¬ (0 ≤ get_cell [[(5 : ℤ), -3], [2, 1]] (0, 1)) ∧
    ¬ (get_cell [[(5 : ℤ), -3], [2, 1]] (0, 0) ≤ 2) := by
  decide

/-- Claim C6 as amended: every cell of a successfully returned board is
exactly the `int(...)` parse of the raw cell text (hence any integer, not
necessarily in `[0, N]`), and if the earlier checks pass and some cell
fails to parse as an integer, the load aborts with `False`. -/
theorem claim_C6_amended (st : PyState) (rows : List (List String))
    (sr sc : ℕ)
    (hsq : ∀ row ∈ rows, row.length = rows.length)
    (hsz : sr * sc = rows.length) :
    (∀ st2 b, load_board_csv st (some rows) sr sc = (PyRet.pyTrue, st2) →
      st2.board = some b →
      ∀ k t, k < rows.length → t < (rows.getD k []).length →
        py_int ((rows.getD k []).getD t "") =
          some ((b.getD k []).getD t 0)) ∧
    ((∃ k, k < rows.length ∧ ∃ t, t < (rows.getD k []).length ∧
        py_int ((rows.getD k []).getD t "") = none) →
      load_board_csv st (some rows) sr sc = (PyRet.pyFalse, st)) := by
  constructor
  · intro st2 b hload hb
    obtain ⟨b', hconv, -, -, hst⟩ := load_success_spec hload
    have hbb : b = b' := by
      rw [hst] at hb
      simpa using hb.symm
    subst hbb
    exact (convert_some_spec hconv).2.2
  · intro ⟨k, hk, t, ht, hnone⟩
    rcases hconv : convert_grid_str_to_int rows with _ | b
    · rw [load_board_csv_some, if_neg (not_not_intro hsq),
        if_neg (by omega), hconv]
    · exfalso
      have := (convert_some_spec hconv).2.2 k t hk ht
      rw [hnone] at this
      cases this

theorem claim_C6_amended_witness :
    (∀ row ∈ [["5", "-3"], ["2", "1"]],
      row.length = ([["5", "-3"], ["2", "1"]] : List (List String)).length) ∧
    1 * 2 = ([["5", "-3"], ["2", "1"]] : List (List String)).length ∧
    ((∀ st2 b, load_board_csv {} (some [["5", "-3"], ["2", "1"]]) 1 2 =
        (PyRet.pyTrue, st2) →
      st2.board = some b →
      ∀ k t, k < ([["5", "-3"], ["2", "1"]] : List (List String)).length →
        t < (([["5", "-3"], ["2", "1"]] : List (List String)).getD k []).length →
        py_int ((([["5", "-3"], ["2", "1"]] :
          List (List String)).getD k []).getD t "") =
          some ((b.getD k []).getD t 0)) ∧
    ((∃ k, k < ([["5", "-3"], ["2", "1"]] : List (List String)).length ∧
        ∃ t, t < (([["5", "-3"], ["2", "1"]] :
          List (List String)).getD k []).length ∧
        py_int ((([["5", "-3"], ["2", "1"]] :
          List (List String)).getD k []).getD t "") = none) →
      load_board_csv {} (some [["5", "-3"], ["2", "1"]]) 1 2 =
        (PyRet.pyFalse, {}))) :=
  ⟨by decide, by decide,
    claim_C6_amended {} [["5", "-3"], ["2", "1"]] 1 2 (by decide) (by decide)⟩

/-- Claim C7: for every successful load, `subgrid_row_count *
subgrid_column_count = N`, and the cached subgrid map partitions the `N`
by `N` coordinate space: exactly `N` subgrids of exactly `N` member
coordinates each, with every in-range coordinate in exactly one subgrid's
member list. -/
theorem claim_C7_subgrid_partition (st st2 : PyState)
    (rows : List (List String)) (sr sc : ℕ)
    (hload : load_board_csv st (some rows) sr sc = (PyRet.pyTrue, st2)) :
    st2.subgrid_row_count = some sr ∧
    st2.subgrid_column_count = some sc ∧
    sr * sc = rows.length ∧
    st2.sudoku_N = some rows.length ∧
    ∃ subs, st2.subgrid_coordinates = some subs ∧
      subs.length = rows.length ∧
      (∀ sub ∈ subs, sub.length = rows.length) ∧
      (∀ p : Coord, p.1 < rows.length → p.2 < rows.length →
        subs.countP (fun sub => decide (p ∈ sub)) = 1) := by
  obtain ⟨b, hconv, hsq, hsz, hst⟩ := load_success_spec hload
  subst hst
  refine ⟨rfl, rfl, hsz, rfl, set_subgrid_coordinates sr sc, rfl, ?_, ?_, ?_⟩
  · rw [length_set_subgrid_coordinates, Nat.mul_comm]
    exact hsz
  · intro sub hsub
    rw [sub_length_of_mem hsub]
    exact hsz
  · intro p h1 h2
    exact countP_subgrids ⟨by omega, by omega⟩

theorem claim_C7_subgrid_partition_witness :
    load_board_csv {} (some [["1", "0"], ["0", "2"]]) 1 2 =
      (PyRet.pyTrue, (load_board_csv {} (some [["1", "0"], ["0", "2"]]) 1 2).2) ∧
    ((load_board_csv {} (some [["1", "0"], ["0", "2"]]) 1 2).2.subgrid_row_count =
      some 1 ∧
    (load_board_csv {} (some [["1", "0"], ["0", "2"]]) 1 2).2.subgrid_column_count =
      some 2 ∧
    1 * 2 = ([["1", "0"], ["0", "2"]] : List (List String)).length ∧
    (load_board_csv {} (some [["1", "0"], ["0", "2"]]) 1 2).2.sudoku_N =
      some ([["1", "0"], ["0", "2"]] : List (List String)).length ∧
    ∃ subs, (load_board_csv {} (some [["1", "0"], ["0", "2"]]) 1 2).2.subgrid_coordinates =
        some subs ∧
      subs.length = ([["1", "0"], ["0", "2"]] : List (List String)).length ∧
      (∀ sub ∈ subs,
        sub.length = ([["1", "0"], ["0", "2"]] : List (List String)).length) ∧
      (∀ p : Coord, p.1 < ([["1", "0"], ["0", "2"]] : List (List String)).length →
        p.2 < ([["1", "0"], ["0", "2"]] : List (List String)).length →
        subs.countP (fun sub => decide (p ∈ sub)) = 1)) :=
  ⟨by decide,
    claim_C7_subgrid_partition {} _ [["1", "0"], ["0", "2"]] 1 2 (by decide)⟩

/-- Claim C8, counterexample: three of the four load failure modes (file
not found, grid not square, non-numeric cell) all return Python `False`,
so they are not distinguishable from the returned result; only the
invalid-subgrid failure (a bare `return`, i.e. `None`) differs. -/
theorem claim_C8_counterexample :
    (load_board_csv {} none 1 2).1 = PyRet.pyFalse ∧
    (load_board_csv {} (some [["1", "2"], ["3"]]) 1 2).1 = PyRet.pyFalse ∧
    (load_board_csv {} (some [["1", "x"], ["3", "4"]]) 1 2).1 =
      PyRet.pyFalse ∧
    (load_board_csv {} none 1 2).1 =
      (load_board_csv {} (some [["1", "2"], ["3"]]) 1 2).1 := by
  decide

/-- Claim C8 as amended: the four checks run in the stated order (missing
file, non-square grid, bad subgrid product, non-numeric cell), the first
failing check aborts with the instance state unchanged, and the
invalid-subgrid failure (`None`) is the only one distinguishable from the
other three (`False`). -/
theorem claim_C8_amended (st : PyState) (sr sc : ℕ) :
    (load_board_csv st none sr sc = (PyRet.pyFalse, st)) ∧
    (∀ rows : List (List String),
      ¬ (∀ row ∈ rows, row.length = rows.length) →
      load_board_csv st (some rows) sr sc = (PyRet.pyFalse, st)) ∧
    (∀ rows : List (List String),
      (∀ row ∈ rows, row.length = rows.length) →
      sr * sc ≠ rows.length →
      load_board_csv st (some rows) sr sc = (PyRet.pyNone, st)) ∧
    (∀ rows : List (List String),
      (∀ row ∈ rows, row.length = rows.length) →
      sr * sc = rows.length →
      convert_grid_str_to_int rows = none →
      load_board_csv st (some rows) sr sc = (PyRet.pyFalse, st)) ∧
    PyRet.pyNone ≠ PyRet.pyFalse := by
  refine ⟨rfl, ?_, ?_, ?_, by decide⟩
  · intro rows hsq
    rw [load_board_csv_some, if_pos hsq]
  · intro rows hsq hsz
    rw [load_board_csv_some, if_neg (not_not_intro hsq), if_pos hsz]
  · intro rows hsq hsz hconv
    rw [load_board_csv_some, if_neg (not_not_intro hsq), if_neg (by omega),
      hconv]

theorem claim_C8_amended_witness :
    (load_board_csv {} none 1 2 = (PyRet.pyFalse, {})) ∧
    load_board_csv {} (some [["1", "2"], ["3"]]) 1 2 = (PyRet.pyFalse, {}) ∧
    load_board_csv {} (some [["1", "2"], ["3", "4"]]) 3 2 =
      (PyRet.pyNone, {}) ∧
    load_board_csv {} (some [["1", "x"], ["3", "4"]]) 1 2 =
      (PyRet.pyFalse, {}) := by
  obtain ⟨h1, h2, h3, h4, -⟩ := claim_C8_amended {} 1 2
  obtain ⟨-, -, h3', -, -⟩ := claim_C8_amended {} 3 2
  exact ⟨h1, h2 _ (by decide), h3' _ (by decide) (by decide),
    h4 _ (by decide) (by decide) (by decide)⟩

/-- Claim C1, counterexample: the input `[[0, 5], [0, 0]]` loads
successfully (the loader never range-checks cells) and the solver reports
success with final board `[[1, 5], [2, 1]]`, whose first row does not
contain the value 2 at all — so a successful solve does not guarantee that
every row holds each value in `1 .. N` exactly once. -/
theorem claim_C1_counterexample :
    (load_board_csv {} (some [["0", "5"], ["0", "0"]]) 1 2).1 =
      PyRet.pyTrue ∧
    (backtrack (load_board_csv {} (some [["0", "5"], ["0", "0"]]) 1 2).2).1 =
      true ∧
    (backtrack
      (load_board_csv {} (some [["0", "5"], ["0", "0"]]) 1 2).2).2.board =
      some [[1, 5], [2, 1]] ∧
    ¬ (((List.range 2).map (fun t =>
      get_cell [[(1 : ℤ), 5], [2, 1]] (0, t))).count 2 = 1) := by
  decide

/-- Claim C1 as amended: for every puzzle state produced by a successful
load whose givens all lie in `[0, N]` and in which no two equal non-zero
givens share a row, column or subgrid, a successful `backtrack` leaves a
board in which every row, every column and every subgrid contains each
value in `1 .. N` exactly once. -/
theorem claim_C1_amended (st st2 st3 : PyState) (rows : List (List String))
    (sr sc : ℕ) (b b2 : Board)
    (hload : load_board_csv st (some rows) sr sc = (PyRet.pyTrue, st2))
    (hb : st2.board = some b)
    (hrange : ∀ x, x < rows.length → ∀ y, y < rows.length →
      0 ≤ get_cell b (x, y) ∧ get_cell b (x, y) ≤ (rows.length : ℤ))
    (hconsist : ∀ x, x < rows.length → ∀ y, y < rows.length →
      ∀ x2, x2 < rows.length → ∀ y2, y2 < rows.length →
      ((x, y) : Coord) ≠ (x2, y2) → same_unit sr sc (x, y) (x2, y2) →
      get_cell b (x, y) ≠ 0 → get_cell b (x, y) ≠ get_cell b (x2, y2))
    (hrun : backtrack st2 = (true, st3))
    (hb2 : st3.board = some b2) :
    ∀ v : ℤ, 1 ≤ v → v ≤ (rows.length : ℤ) →
      (∀ x, x < rows.length →
        (((List.range rows.length).map
          (fun t => get_cell b2 (x, t))).count v = 1)) ∧
      (∀ y, y < rows.length →
        (((List.range rows.length).map
          (fun t => get_cell b2 (t, y))).count v = 1)) ∧
      (∀ sub ∈ set_subgrid_coordinates sr sc,
        ((sub.map (get_cell b2)).count v = 1)) := by
  obtain ⟨b', hconv, hsq, hsz, hst⟩ := load_success_spec hload
  have hbb : b = b' := by
    rw [hst] at hb
    simpa using hb.symm
  subst hbb
  rw [hst] at hrun
  simp only [backtrack] at hrun
  rcases hproc : process_board_F rows.length (set_subgrid_coordinates sr sc)
      (set_protected_coordinates b) (rows.length ^ 2 + 1) 0 b with _ | ⟨r, bb⟩ <;>
    rw [hproc] at hrun
  · simp at hrun
  · have hr : r = true := (Prod.ext_iff.mp hrun).1
    have hst3 : st3 = _ := (Prod.ext_iff.mp hrun).2.symm
    have hbb2 : b2 = bb := by
      rw [hst3] at hb2
      simpa using hb2.symm
    subst hbb2
    subst hr
    have hshape : grid_shape rows.length b := load_success_shape hconv hsq
    have hprot : ∀ p : Coord, p ∈ set_protected_coordinates b ↔
        (p.1 < rows.length ∧ p.2 < rows.length ∧ get_cell b p ≠ 0) := by
      intro p
      rw [mem_set_protected, hshape.1]
    have hrange' : ∀ p : Coord, in_range rows.length p →
        0 ≤ get_cell b p ∧ get_cell b p ≤ (rows.length : ℤ) :=
      fun p hp => hrange p.1 hp.1 p.2 hp.2
    have hconsist' : ∀ p q : Coord, in_range rows.length p →
        in_range rows.length q → p ≠ q → same_unit sr sc p q →
        get_cell b p ≠ 0 → get_cell b p ≠ get_cell b q :=
      fun p q hp hq => hconsist p.1 hp.1 p.2 hp.2 q.1 hq.1 q.2 hq.2
    exact solver_success_counts hsz.symm hshape hprot hrange' hconsist' hproc

theorem claim_C1_amended_witness :
    load_board_csv {} (some [["0", "0"], ["0", "0"]]) 1 2 =
      (PyRet.pyTrue,
        (load_board_csv {} (some [["0", "0"], ["0", "0"]]) 1 2).2) ∧
    (load_board_csv {} (some [["0", "0"], ["0", "0"]]) 1 2).2.board =
      some [[0, 0], [0, 0]] ∧
    backtrack (load_board_csv {} (some [["0", "0"], ["0", "0"]]) 1 2).2 =
      (true,
        (backtrack (load_board_csv {} (some [["0", "0"], ["0", "0"]]) 1 2).2).2) ∧
    (backtrack
      (load_board_csv {} (some [["0", "0"], ["0", "0"]]) 1 2).2).2.board =
      some [[1, 2], [2, 1]] ∧
    (∀ v : ℤ, 1 ≤ v → v ≤ (2 : ℤ) →
      (∀ x, x < 2 →
        (((List.range 2).map
          (fun t => get_cell [[(1 : ℤ), 2], [2, 1]] (x, t))).count v = 1)) ∧
      (∀ y, y < 2 →
        (((List.range 2).map
          (fun t => get_cell [[(1 : ℤ), 2], [2, 1]] (t, y))).count v = 1)) ∧
      (∀ sub ∈ set_subgrid_coordinates 1 2,
        ((sub.map (get_cell [[(1 : ℤ), 2], [2, 1]])).count v = 1))) :=
  ⟨by decide, by decide, by decide, by decide,
    claim_C1_amended {}
      (load_board_csv {} (some [["0", "0"], ["0", "0"]]) 1 2).2
      (backtrack (load_board_csv {} (some [["0", "0"], ["0", "0"]]) 1 2).2).2
      [["0", "0"], ["0", "0"]] 1 2
      [[0, 0], [0, 0]] [[1, 2], [2, 1]] (by decide) (by decide) (by decide)
      (by
        intro x hx y hy x2 hx2 y2 hy2 hne hu hnz
        exfalso
        apply hnz
        have hxx : x < 2 := hx
        have hyy : y < 2 := hy
        interval_cases x <;> interval_cases y <;> decide)
      (by decide) (by decide)⟩
